import Mathlib

/-!
Verification of the deployment lifecycle manager of the static-site
hosting service (handlers/upload.go, handlers/static.go,
handlers/delete.go, handlers/list.go, models/deployment.go).

Embedding conventions:
* A filesystem path is a `List String` of path segments; the Go string
  form of a path is recovered with `joinSegs` / `pathToStr`.  The two
  places where the Go code performs raw *string* operations on paths
  (`strings.HasPrefix` checks in `unzip` and `StaticFileHandler`) are
  modelled at the string level with `strStartsWith`, which is Go's
  `strings.HasPrefix` (byte-prefix, embedded as char-list prefix).
* `filepath.Clean` / the cleaning done by `filepath.Join` is `cleanSegs`:
  empty and `.` segments are dropped and `..` pops the previous segment
  (kept at the front of a relative path, dropped at the root of an
  absolute one), exactly Go's lexical cleaning.
* The filesystem is a flat association list from cleaned paths to nodes
  (`Fs`); the metadata table is a list of `DRec` rows.
* Failure of external effects that the handlers check (`db.Exec`,
  `os.RemoveAll`, reading one zip entry's stream) is driven by explicit
  boolean parameters of the models.
-/

/-- A path as a list of segments (the `/`-separated components of the
Go path string). -/
abbrev FPath := List String

/-- One step of Go `filepath.Clean` over the segments, with the cleaned
prefix kept reversed in `acc`.  `abs` tells whether the path is rooted:
at the root `..` is dropped, in a relative path leading `..` are kept. -/
def cleanStack (abs : Bool) : List String → List String → List String
  | acc, [] => acc
  | acc, s :: rest =>
    if s = "" ∨ s = "." then cleanStack abs acc rest
    else if s = ".." then
      match acc with
      | [] => if abs then cleanStack abs [] rest else cleanStack abs [".."] rest
      | a :: as =>
        if a = ".." then cleanStack abs (".." :: a :: as) rest
        else cleanStack abs as rest
    else cleanStack abs (s :: acc) rest

/-- Go `filepath.Clean` on a segment list (`abs` = rooted path). -/
def cleanSegs (abs : Bool) (l : List String) : List String :=
  (cleanStack abs [] l).reverse

/-- The segments that survive cleaning of a traversal-free path:
empty and `.` segments are dropped. -/
def filterSegs (l : List String) : List String :=
  l.filter fun s => ¬ (s = "" ∨ s = ".")

/-- Join segments with `/` (empty list gives the empty string), the
string form of an uncleaned segment list. -/
def joinSegs : List String → String
  | [] => ""
  | [s] => s
  | s :: rest => s ++ "/" ++ joinSegs rest

/-- The Go string form of a cleaned relative path (`filepath.Clean`
returns `"."` for an empty result). -/
def pathToStr (l : List String) : String :=
  if l = [] then "." else joinSegs l

/-- The Go string form of an absolute (cleaned) path. -/
def absPathStr (l : List String) : String :=
  "/" ++ joinSegs l

/-- Go `strings.HasPrefix s pre` (byte prefix of UTF-8 strings, embedded
as prefix of the char lists). -/
def strStartsWith (s pre : String) : Bool :=
  pre.data.isPrefixOf s.data

/-- Go `strings.Contains s ".."` (a `..` substring cannot straddle a
`/`, so on a split name this is checked per segment). -/
def containsDD (s : String) : Bool :=
  decide ("..".data <:+: s.data)

/-- A filesystem node: a regular file (content, permission mode,
modification time) or a directory (permission mode).  Children of a
directory are the paths extending it in the flat map. -/
inductive FKind where
  | file (content : String) (mode : Nat) (mtime : Nat)
  | dir (mode : Nat)
deriving DecidableEq

/-- The filesystem: a flat map from cleaned paths (relative to the
process working directory) to nodes. -/
abbrev Fs := List (FPath × FKind)

/-- `os.Stat`-style lookup of a path. -/
def lookupF (fs : Fs) (p : FPath) : Option FKind :=
  (fs.find? fun e => e.1 = p).map (·.2)

/-- Overwrite (or create) the node at a path. -/
def setP (fs : Fs) (p : FPath) (v : FKind) : Fs :=
  (p, v) :: fs.filter fun e => ¬ e.1 = p

/-- Worker for `os.MkdirAll`: create the missing directories of
`done ++ rest` segment by segment; fails (like the OS call) iff a
regular file sits on the chain. -/
def mkdirAllAux (fs : Fs) (done : FPath) (m : Nat) : List String → Option Fs
  | [] => some fs
  | s :: rest =>
    match lookupF fs (done ++ [s]) with
    | some (.file _ _ _) => none
    | some (.dir _) => mkdirAllAux fs (done ++ [s]) m rest
    | none => mkdirAllAux ((done ++ [s], FKind.dir m) :: fs) (done ++ [s]) m rest

/-- Go `os.MkdirAll(p, m)`. -/
def mkdirAllF (fs : Fs) (p : FPath) (m : Nat) : Option Fs :=
  mkdirAllAux fs [] m p

/-- Go `os.OpenFile(p, O_WRONLY|O_CREATE|O_TRUNC, m)` followed by
writing `c`: fails on a directory or when the parent directory is not
present; an existing regular file is truncated and keeps its mode.
Modification times of written files are abstracted to `0`. -/
def writeFileF (fs : Fs) (p : FPath) (c : String) (m : Nat) : Option Fs :=
  match p with
  | [] => none
  | _ :: _ =>
    let parentOk : Bool :=
      p.dropLast.isEmpty ||
        (match lookupF fs p.dropLast with
         | some (.dir _) => true
         | _ => false)
    if ¬ parentOk then none
    else
      match lookupF fs p with
      | some (.dir _) => none
      | some (.file _ m0 _) => some (setP fs p (.file c m0 0))
      | none => some (setP fs p (.file c m 0))

/-- Go `os.RemoveAll(p)`: drop the whole subtree rooted at `p`. -/
def removeAllF (fs : Fs) (p : FPath) : Fs :=
  fs.filter fun e => ¬ p <+: e.1

/-- One zip entry: `name` is the segment list of the entry's `f.Name`,
`isDir` is `f.FileInfo().IsDir()`, `mode` is `f.Mode()`, and `readOk`
models whether the entry's compressed stream opens and copies without
error (a corrupt entry makes `f.Open`/`io.Copy` fail). -/
structure ZEntry where
  name : List String
  isDir : Bool
  content : String
  mode : Nat
  readOk : Bool
deriving DecidableEq

/-- An uploaded archive; `ok = false` models a container that
`zip.OpenReader` rejects as malformed. -/
structure ZArchive where
  ok : Bool
  entries : List ZEntry
deriving DecidableEq

/-- `strings.Contains(f.Name, "..")` — a `..` substring cannot straddle
the `/` separator, so it occurs in the joined name string iff it occurs
in some segment. -/
def hasDotDot (name : List String) : Bool :=
  name.any containsDD

/-- The per-entry loop of `unzip` (handlers/upload.go lines 89-130):
skip entries whose name contains `..`; skip entries whose joined path
does not extend `filepath.Clean(dest)` plus a path separator; create
directory entries (the `os.MkdirAll` error is discarded, line 103);
for file entries create the parent directories and write the content,
aborting the whole extraction on any error. -/
def unzipEntries (fs : Fs) (dest : FPath) : List ZEntry → Fs × Bool
  | [] => (fs, true)
  | e :: rest =>
    if hasDotDot e.name then unzipEntries fs dest rest
    else
      let fPath := cleanSegs false (dest ++ e.name)
      if ¬ strStartsWith (pathToStr fPath) (pathToStr (cleanSegs false dest) ++ "/") then
        unzipEntries fs dest rest
      else if e.isDir then
        unzipEntries ((mkdirAllF fs fPath e.mode).getD fs) dest rest
      else
        match mkdirAllF fs fPath.dropLast 0o755 with
        | none => (fs, false)
        | some fs1 =>
          match writeFileF fs1 fPath (if e.readOk then e.content else "") e.mode with
          | none => (fs1, false)
          | some fs2 => if e.readOk then unzipEntries fs2 dest rest else (fs2, false)

/-- `unzip(src, dest)` (handlers/upload.go lines 80-132): open the
archive (failing fast on a malformed container), `os.MkdirAll(dest)`
discarding its error (line 87), then process the entries.  The returned
`Bool` is `true` iff no error was returned. -/
def unzipF (fs : Fs) (dest : FPath) (a : ZArchive) : Fs × Bool :=
  if ¬ a.ok then (fs, false)
  else unzipEntries ((mkdirAllF fs (cleanSegs false dest) 0o755).getD fs) dest a.entries

/-- A row of the `deployments` table / a `models.Deployment` value
(id, filename, timestamp, path).  Timestamps are abstract instants
(`Nat`); the stored path is kept in segment form. -/
structure DRec where
  id : String
  filename : String
  timestamp : Nat
  path : FPath
deriving DecidableEq

/-- `SELECT ... FROM deployments WHERE id = ?` returning the row or
`sql.ErrNoRows`. -/
def dbGet (db : List DRec) (i : String) : Option DRec :=
  db.find? fun r => r.id = i

/-- `INSERT INTO deployments ...`: fails when the driver reports an
error (`ok = false`) or on a primary-key conflict. -/
def dbInsert (db : List DRec) (r : DRec) (ok : Bool) : Option (List DRec) :=
  if ok && db.all (fun x => x.id != r.id) then some (r :: db) else none

/-- Outcome of `UploadHandler`: 400 for a missing file part, 500 for an
extraction or persistence failure, 200 with the response record. -/
inductive UpResult where
  | invalidFile
  | unzipFailed
  | insertFailed
  | ok (resp : DRec)
deriving DecidableEq

/-- `UploadHandler` (handlers/upload.go lines 19-78) from the point the
request is parsed.  `filePresent` says whether the multipart form holds
a `file` part at all; a part whose declared filename is empty is stored
by `mime/multipart.ReadForm` as a plain form value, not a file, so
`r.FormFile("file")` fails for it as well and the handler answers
400 "Invalid file".  This makes the `originalFilename` defaulting of
lines 33-36 unreachable for empty names; it is kept here verbatim.
The temporary zip file is created in the working directory and removed
by a `defer`; it is not modelled.  `t1` is the clock instant of the
`models.NewDeployment` built for the INSERT (line 64) and `t2` that of
the separate `models.NewDeployment` built for the response (line 74). -/
def uploadModel (db : List DRec) (fs : Fs) (filePresent : Bool)
    (declaredName : String) (archive : ZArchive) (siteID : String)
    (insertOk : Bool) (t1 t2 : Nat) : UpResult × List DRec × Fs :=
  if filePresent = false ∨ declaredName = "" then (.invalidFile, db, fs)
  else
    let originalFilename := if declaredName = "" then "unknown.zip" else declaredName
    let destDir : FPath := ["deployments", siteID]
    match unzipF fs destDir archive with
    | (fs1, false) => (.unzipFailed, db, fs1)
    | (fs1, true) =>
      match dbInsert db ⟨siteID, originalFilename, t1, destDir⟩ insertOk with
      | none => (.insertFailed, db, removeAllF fs1 destDir)
      | some db2 => (.ok ⟨siteID, originalFilename, t2, destDir⟩, db2, fs1)

/-- Rebase of one node by `copyDir`/`copyFile`: files keep content and
(via the final `os.Chmod`) their mode, with a fresh modification time;
directories are created with mode `0755`. -/
def rebaseK : FKind → FKind
  | .file c m _ => .file c m 0
  | .dir _ => .dir 0o755

/-- The nodes written by the recursive walk of `copyDir(src, dst)`:
every node under `src` reappears under `dst`. -/
def copyEntries (fs : Fs) (src dst : FPath) : List (FPath × FKind) :=
  fs.filterMap fun e =>
    if src <+: e.1 then some (dst ++ e.1.drop src.length, rebaseK e.2) else none

/-- Overlay a list of written nodes onto the filesystem in order. -/
def applyCopies : List (FPath × FKind) → Fs → Fs
  | [], fs => fs
  | e :: rest, fs => applyCopies rest (setP fs e.1 e.2)

/-- `copyDir(src, dst)` (handlers/upload.go lines 220-250):
`os.MkdirAll(dst, 0755)` first, then `os.ReadDir(src)` — which fails if
`src` is missing or not a directory — then copy every node of the
subtree, overwriting what is already under `dst`. -/
def copyDirF (fs : Fs) (src dst : FPath) : Fs × Bool :=
  match mkdirAllF fs dst 0o755 with
  | none => (fs, false)
  | some fs1 =>
    match lookupF fs1 src with
    | some (.dir _) => (applyCopies (copyEntries fs1 src dst) fs1, true)
    | _ => (fs1, false)

/-- Outcome of `RollbackHandler`. -/
inductive RbResult where
  | badRequest
  | notFound
  | filesMissing
  | copyFailed
  | insertFailed
  | ok (src : DRec) (newRec : DRec)
deriving DecidableEq

/-- `RollbackHandler` (handlers/upload.go lines 150-217): 400 on a
missing id, 404 if the record is absent, 404 "files no longer exist" if
`os.Stat` finds nothing at the stored path, then copy the tree into
`deployments/<newID>`, insert the new record (removing the copied
directory if the INSERT fails) and answer with both records. -/
def rollbackModel (db : List DRec) (fs : Fs) (sourceID newID : String)
    (insertOk : Bool) (t : Nat) : RbResult × List DRec × Fs :=
  if sourceID = "" then (.badRequest, db, fs)
  else
    match dbGet db sourceID with
    | none => (.notFound, db, fs)
    | some src =>
      match lookupF fs src.path with
      | none => (.filesMissing, db, fs)
      | some _ =>
        let newPath : FPath := ["deployments", newID]
        match copyDirF fs src.path newPath with
        | (fs2, false) => (.copyFailed, db, fs2)
        | (fs2, true) =>
          let newRec : DRec := ⟨newID, "[ROLLBACK] " ++ src.filename, t, newPath⟩
          match dbInsert db newRec insertOk with
          | none => (.insertFailed, db, removeAllF fs2 newPath)
          | some db2 => (.ok src newRec, db2, fs2)

/-- Outcome of `DeleteDeploymentHandler`; `ok warned` is the 200
response, `warned = true` when the directory removal failed and only
the warning was printed. -/
inductive DelResult where
  | badRequest
  | notFound
  | dbError
  | ok (warned : Bool)
deriving DecidableEq

/-- `DeleteDeploymentHandler` (handlers/delete.go lines 14-60): 400 on
a missing id, 404 if the record is absent; otherwise delete the row
first and then attempt `os.RemoveAll` on the stored path, still
answering 200 when the removal fails (`removeOk = false`). -/
def deleteOneModel (db : List DRec) (fs : Fs) (idStr : String)
    (dbDelOk removeOk : Bool) : DelResult × List DRec × Fs :=
  if idStr = "" then (.badRequest, db, fs)
  else
    match dbGet db idStr with
    | none => (.notFound, db, fs)
    | some r =>
      if dbDelOk then
        let db2 := db.filter fun x => ¬ x.id = idStr
        if removeOk then (.ok false, db2, removeAllF fs r.path)
        else (.ok true, db2, fs)
      else (.dbError, db, fs)

/-- Outcome of `DeleteAllDeploymentsHandler`: the distinct
"No deployments to delete" response versus the
"Bulk deletion completed" response with its `deleted_count` and
`failed_deletions`. -/
inductive DelAllResult where
  | nothingToDelete
  | bulk (count : Nat) (failed : List FPath)
deriving DecidableEq

/-- `DeleteAllDeploymentsHandler` (src/unnamed/part_001 lines 13-93):
snapshot all rows; if none exist answer "No deployments to delete" with
count 0; otherwise delete all rows, best-effort remove each directory
(`failSet` lists the paths whose `os.RemoveAll` fails), try
`os.Remove("deployments")` which silently fails when non-empty, and
report the count and the failed paths. -/
def deleteAllModel (db : List DRec) (fs : Fs) (failSet : List FPath) :
    DelAllResult × List DRec × Fs :=
  if db = [] then (.nothingToDelete, db, fs)
  else
    let paths := db.map (·.path)
    let fs1 := paths.foldl (fun acc p => if p ∈ failSet then acc else removeAllF acc p) fs
    let failed := paths.filter fun p => p ∈ failSet
    let fs2 :=
      if fs1.any fun e => decide ((["deployments"] : FPath) <+: e.1 ∧ ¬ e.1 = ["deployments"]) then fs1
      else fs1.filter fun e => ¬ e.1 = (["deployments"] : FPath)
    (.bulk db.length failed, [], fs2)

/-- Outcome of the static resolver: 404 or the served file's content
and modification time (passed to `http.ServeContent`). -/
inductive SResult where
  | notFound
  | ok (content : String) (mtime : Nat)
deriving DecidableEq

/-- `StaticFileHandler` (handlers/static.go lines 11-65): the request
path without its leading `/` is split at the first `/` into a site id
and a remainder; no remainder (or an empty one) is 404; the candidate
is `filepath.Join("deployments", siteID, filePath)`; the security check
compares `filepath.Abs` forms with a bare `strings.HasPrefix`; then
`os.Stat` — absent paths and directories are 404 — and the file is
served with its modification time.  `raw` is the `/`-split of the
trimmed request path and `cwd` the process working directory (the
filesystem map is rooted at `cwd`, so lookups that leave it miss). -/
def resolveModel (cwd : FPath) (fs : Fs) (raw : List String) : SResult :=
  match raw with
  | [] => .notFound
  | [_] => .notFound
  | siteID :: rest =>
    if joinSegs rest = "" then .notFound
    else
      let fullPath := cleanSegs false (["deployments", siteID] ++ rest)
      let absDeployments := cleanSegs true (cwd ++ ["deployments"])
      let absFullPath := cleanSegs true (cwd ++ fullPath)
      if ¬ strStartsWith (absPathStr absFullPath) (absPathStr absDeployments) then
        .notFound
      else
        match lookupF fs fullPath with
        | none => .notFound
        | some (.dir _) => .notFound
        | some (.file c _ mt) => .ok c mt

/-- `p` lies strictly inside the destination directory `dest` (after
normalization): the cleaned destination is a proper prefix of `p`. -/
def strictlyInside (dest p : FPath) : Prop :=
  cleanSegs false dest <+: p ∧ p ≠ cleanSegs false dest

/-- The entry is rejected by one of the two guards of `unzip`: its name
contains `..`, or its joined destination path fails the
`strings.HasPrefix(fPath, filepath.Clean(dest)+"/")` check. -/
def entrySkipped (dest : FPath) (e : ZEntry) : Prop :=
  hasDotDot e.name = true ∨
    strStartsWith (pathToStr (cleanSegs false (dest ++ e.name)))
      (pathToStr (cleanSegs false dest) ++ "/") = false

instance (dest : FPath) (e : ZEntry) : Decidable (entrySkipped dest e) := by
  unfold entrySkipped
  infer_instance

section PathLemmas

theorem cleanStack_append (abs : Bool) (a b : List String) :
    ∀ acc, cleanStack abs acc (a ++ b) = cleanStack abs (cleanStack abs acc a) b := by
  induction a with
  | nil => intro acc; rfl
  | cons s rest ih =>
    intro acc
    by_cases h1 : s = "" ∨ s = "."
    · simp only [List.cons_append, cleanStack, if_pos h1]; exact ih acc
    · by_cases h2 : s = ".."
      · cases acc with
        | nil =>
          cases abs
          · simp only [List.cons_append, cleanStack, if_neg h1, if_pos h2]
            exact ih _
          · simp only [List.cons_append, cleanStack, if_neg h1, if_pos h2]
            exact ih _
        | cons a as =>
          by_cases h3 : a = ".."
          · simp only [List.cons_append, cleanStack, if_neg h1, if_pos h2, if_pos h3]
            exact ih _
          · simp only [List.cons_append, cleanStack, if_neg h1, if_pos h2, if_neg h3]
            exact ih _
      · simp only [List.cons_append, cleanStack, if_neg h1, if_neg h2]
        exact ih _

/-- Cleaning a list with no `..` segment never pops: it just filters
out empty and `.` segments, independently of the stack so far. -/
theorem cleanStack_no_dd (abs : Bool) (l : List String)
    (h : ∀ s ∈ l, s ≠ "..") :
    ∀ acc, cleanStack abs acc l = (filterSegs l).reverse ++ acc := by
  induction l with
  | nil => intro acc; simp [filterSegs, cleanStack]
  | cons s rest ih =>
    intro acc
    have hs : s ≠ ".." := h s (List.mem_cons_self _ _)
    have hr : ∀ x ∈ rest, x ≠ ".." := fun x hx => h x (List.mem_cons_of_mem _ hx)
    by_cases h1 : s = "" ∨ s = "."
    · simp only [cleanStack, if_pos h1]
      rw [ih hr acc]
      have : filterSegs (s :: rest) = filterSegs rest := by
        rcases h1 with h1 | h1 <;> simp [filterSegs, List.filter_cons, h1]
      rw [this]
    · simp only [cleanStack, if_pos, if_neg h1, if_neg hs]
      rw [ih hr (s :: acc)]
      have : filterSegs (s :: rest) = s :: filterSegs rest := by
        push_neg at h1
        simp [filterSegs, List.filter_cons, h1.1, h1.2]
      rw [this]
      simp

theorem filterSegs_eq_of_clean (l : List String)
    (h : ∀ s ∈ l, ¬ (s = "" ∨ s = ".")) : filterSegs l = l := by
  simp only [filterSegs]
  exact List.filter_eq_self.2 (by intro a ha; simpa using h a ha)

/-- Cleaning distributes over append when the appended part is free of
`..` segments. -/
theorem cleanSegs_append_no_dd (abs : Bool) (a b : List String)
    (h : ∀ s ∈ b, s ≠ "..") :
    cleanSegs abs (a ++ b) = cleanSegs abs a ++ filterSegs b := by
  simp only [cleanSegs]
  rw [cleanStack_append, cleanStack_no_dd abs b h, List.reverse_append,
    List.reverse_reverse]

theorem joinSegs_append (a b : List String) (ha : a ≠ []) (hb : b ≠ []) :
    joinSegs (a ++ b) = joinSegs a ++ "/" ++ joinSegs b := by
  induction a with
  | nil => exact absurd rfl ha
  | cons s rest ih =>
    cases rest with
    | nil =>
      cases b with
      | nil => exact absurd rfl hb
      | cons t bs => simp [joinSegs]
    | cons s2 rest2 =>
      have h := ih (by simp)
      show s ++ "/" ++ joinSegs ((s2 :: rest2) ++ b) =
        (s ++ "/" ++ joinSegs (s2 :: rest2)) ++ "/" ++ joinSegs b
      rw [h]
      simp [String.append_assoc]

theorem containsDD_dd : containsDD ".." = true := by decide

end PathLemmas

section FsLemmas

theorem lookupF_cons (q : FPath) (v : FKind) (fs : Fs) (k : FPath) :
    lookupF ((q, v) :: fs) k = if k = q then some v else lookupF fs k := by
  by_cases h : k = q
  · rw [if_pos h]
    simp only [lookupF]
    rw [List.find?_cons_of_pos _ (by simp [h])]
    rfl
  · rw [if_neg h]
    simp only [lookupF]
    rw [List.find?_cons_of_neg _ (by simp; exact fun hc => h hc.symm)]

theorem find?_filter_ne (fs : Fs) (p k : FPath) (h : k ≠ p) :
    (fs.filter fun e => ¬ e.1 = p).find? (fun e => e.1 = k) =
      fs.find? (fun e => e.1 = k) := by
  induction fs with
  | nil => rfl
  | cons e rest ih =>
    rw [List.filter_cons]
    by_cases h1 : e.1 = p
    · have h2 : ¬ e.1 = k := by rw [h1]; exact fun hc => h hc.symm
      rw [if_neg (by simp [h1]), ih,
        List.find?_cons_of_neg _ (by simpa using h2)]
    · by_cases h2 : e.1 = k
      · rw [if_pos (by simpa using h1),
          List.find?_cons_of_pos _ (by simpa using h2),
          List.find?_cons_of_pos _ (by simpa using h2)]
      · rw [if_pos (by simpa using h1),
          List.find?_cons_of_neg _ (by simpa using h2),
          List.find?_cons_of_neg _ (by simpa using h2), ih]

theorem lookupF_filter_ne (fs : Fs) (p k : FPath) (h : k ≠ p) :
    lookupF (fs.filter fun e => ¬ e.1 = p) k = lookupF fs k := by
  simp only [lookupF]
  rw [find?_filter_ne fs p k h]

theorem lookupF_setP (fs : Fs) (p : FPath) (v : FKind) (k : FPath) :
    lookupF (setP fs p v) k = if k = p then some v else lookupF fs k := by
  simp only [setP]
  rw [lookupF_cons]
  by_cases h : k = p
  · rw [if_pos h, if_pos h]
  · rw [if_neg h, if_neg h, lookupF_filter_ne fs p k h]

theorem lookupF_removeAllF_inside (fs : Fs) (p k : FPath) (h : p <+: k) :
    lookupF (removeAllF fs p) k = none := by
  induction fs with
  | nil => rfl
  | cons e rest ih =>
    simp only [removeAllF, List.filter_cons] at ih ⊢
    by_cases h1 : p <+: e.1
    · rw [if_neg (by simpa using h1)]
      exact ih
    · have h2 : ¬ e.1 = k := fun hc => h1 (hc ▸ h)
      rw [if_pos (by simpa using h1)]
      simp only [lookupF] at ih ⊢
      rw [List.find?_cons_of_neg _ (by simpa using h2)]
      exact ih

theorem lookupF_removeAllF_outside (fs : Fs) (p k : FPath) (h : ¬ p <+: k) :
    lookupF (removeAllF fs p) k = lookupF fs k := by
  induction fs with
  | nil => rfl
  | cons e rest ih =>
    simp only [removeAllF, List.filter_cons] at ih ⊢
    by_cases h1 : p <+: e.1
    · have h2 : ¬ e.1 = k := fun hc => h (hc ▸ h1)
      rw [if_neg (by simpa using h1)]
      simp only [lookupF] at ih ⊢
      rw [List.find?_cons_of_neg _ (by simpa using h2)]
      exact ih
    · rw [if_pos (by simpa using h1)]
      by_cases h2 : e.1 = k
      · simp only [lookupF]
        rw [List.find?_cons_of_pos _ (by simpa using h2),
          List.find?_cons_of_pos _ (by simpa using h2)]
      · simp only [lookupF] at ih ⊢
        rw [List.find?_cons_of_neg _ (by simpa using h2),
          List.find?_cons_of_neg _ (by simpa using h2)]
        exact ih

theorem mkdirAllAux_sound (m : Nat) :
    ∀ (rest : List String) (fs : Fs) (done : FPath) (fs' : Fs),
      mkdirAllAux fs done m rest = some fs' →
      ∀ k, lookupF fs' k ≠ lookupF fs k →
        (∃ pre, pre ≠ [] ∧ pre <+: rest ∧ k = done ++ pre) ∧
          lookupF fs k = none ∧ lookupF fs' k = some (.dir m) := by
  intro rest
  induction rest with
  | nil =>
    intro fs done fs' h k hk
    simp only [mkdirAllAux, Option.some.injEq] at h
    rw [← h] at hk
    exact absurd rfl hk
  | cons s rest ih =>
    intro fs done fs' h k hk
    simp only [mkdirAllAux] at h
    cases hl : lookupF fs (done ++ [s]) with
    | none =>
      rw [hl] at h
      by_cases heq : lookupF fs' k = lookupF ((done ++ [s], FKind.dir m) :: fs) k
      · rw [heq] at hk
        rw [lookupF_cons] at hk
        have hkq : k = done ++ [s] := by
          by_contra hne
          rw [if_neg hne] at hk
          exact hk rfl
        subst hkq
        refine ⟨⟨[s], by simp, ⟨rest, rfl⟩, rfl⟩, hl, ?_⟩
        rw [heq, lookupF_cons, if_pos rfl]
      · obtain ⟨⟨pre, hpre, hprefix, hkeq⟩, hnone, hdir⟩ :=
          ih _ _ _ h k heq
        have hkq : ¬ k = done ++ [s] := by
          intro hc
          rw [lookupF_cons, if_pos hc] at hnone
          exact Option.noConfusion hnone
        rw [lookupF_cons, if_neg hkq] at hnone
        refine ⟨⟨s :: pre, by simp, ?_, by rw [hkeq]; simp⟩, hnone, hdir⟩
        obtain ⟨t, ht⟩ := hprefix
        exact ⟨t, by rw [List.cons_append, ht]⟩
    | some node =>
      cases node with
      | file c mm mt => rw [hl] at h; exact Option.noConfusion h
      | dir md =>
        rw [hl] at h
        obtain ⟨⟨pre, hpre, hprefix, hkeq⟩, hnone, hdir⟩ := ih _ _ _ h k hk
        refine ⟨⟨s :: pre, by simp, ?_, by rw [hkeq]; simp⟩, hnone, hdir⟩
        obtain ⟨t, ht⟩ := hprefix
        exact ⟨t, by rw [List.cons_append, ht]⟩

theorem mkdirAllAux_preserve {fs fs' : Fs} {done : FPath} {m : Nat}
    {rest : List String} (h : mkdirAllAux fs done m rest = some fs')
    {k : FPath} {v : FKind} (hv : lookupF fs k = some v) :
    lookupF fs' k = some v := by
  by_cases heq : lookupF fs' k = lookupF fs k
  · rw [heq]; exact hv
  · obtain ⟨_, hnone, _⟩ := mkdirAllAux_sound m rest fs done fs' h k heq
    rw [hv] at hnone
    exact Option.noConfusion hnone

theorem mkdirAllAux_fail_of_file (m : Nat) :
    ∀ (rest : List String) (fs : Fs) (done : FPath) (t : List String),
      t ≠ [] → t <+: rest →
      (∃ c mm mt, lookupF fs (done ++ t) = some (.file c mm mt)) →
      mkdirAllAux fs done m rest = none := by
  intro rest
  induction rest with
  | nil =>
    intro fs done t ht hpre _
    obtain ⟨u, hu⟩ := hpre
    exact absurd (List.append_eq_nil.1 hu).1 ht
  | cons s rest ih =>
    intro fs done t ht hpre hfile
    obtain ⟨c, mm, mt, hf⟩ := hfile
    cases t with
    | nil => exact absurd rfl ht
    | cons s' t' =>
      obtain ⟨hs, ht'⟩ := List.cons_prefix_cons.1 hpre
      subst hs
      simp only [mkdirAllAux]
      cases hl : lookupF fs (done ++ [s']) with
      | none =>
        cases t' with
        | nil => rw [hf] at hl; exact Option.noConfusion hl
        | cons u us =>
          apply ih ((done ++ [s'], FKind.dir m) :: fs) (done ++ [s']) (u :: us)
            (by simp) ht'
          refine ⟨c, mm, mt, ?_⟩
          have hne : ¬ ((done ++ [s']) ++ u :: us) = done ++ [s'] := by
            intro hc
            have h2 : ((done ++ [s']) ++ u :: us).length = (done ++ [s']).length := by
              rw [hc]
            simp [List.length_append] at h2
          rw [lookupF_cons, if_neg hne, List.append_assoc, List.singleton_append]
          exact hf
      | some node =>
        cases node with
        | file c2 m2 t2 => rfl
        | dir md =>
          cases t' with
          | nil =>
            rw [hf] at hl
            exact FKind.noConfusion (Option.some.inj hl)
          | cons u us =>
            apply ih fs (done ++ [s']) (u :: us) (by simp) ht'
            refine ⟨c, mm, mt, ?_⟩
            rw [List.append_assoc, List.singleton_append]
            exact hf

theorem mkdirAllAux_chain_dirs (m : Nat) :
    ∀ (rest : List String) (fs : Fs) (done : FPath) (fs' : Fs),
      mkdirAllAux fs done m rest = some fs' →
      ∀ t, t ≠ [] → t <+: rest →
        ∃ m', lookupF fs' (done ++ t) = some (.dir m') := by
  intro rest
  induction rest with
  | nil =>
    intro fs done fs' _ t ht hpre
    obtain ⟨u, hu⟩ := hpre
    exact absurd (List.append_eq_nil.1 hu).1 ht
  | cons s rest ih =>
    intro fs done fs' h t ht hpre
    cases t with
    | nil => exact absurd rfl ht
    | cons s' t' =>
      obtain ⟨hs, ht'⟩ := List.cons_prefix_cons.1 hpre
      subst hs
      simp only [mkdirAllAux] at h
      cases hl : lookupF fs (done ++ [s']) with
      | none =>
        rw [hl] at h
        cases t' with
        | nil =>
          refine ⟨m, mkdirAllAux_preserve h ?_⟩
          rw [lookupF_cons, if_pos rfl]
        | cons u us =>
          have h3 := ih _ _ _ h (u :: us) (by simp) ht'
          rw [List.append_assoc, List.singleton_append] at h3
          exact h3
      | some node =>
        cases node with
        | file c mm mt => rw [hl] at h; exact Option.noConfusion h
        | dir md =>
          rw [hl] at h
          cases t' with
          | nil =>
            exact ⟨md, mkdirAllAux_preserve h hl⟩
          | cons u us =>
            have h3 := ih _ _ _ h (u :: us) (by simp) ht'
            rw [List.append_assoc, List.singleton_append] at h3
            exact h3

theorem mkdirAllAux_none_file (m : Nat) :
    ∀ (rest : List String) (fs : Fs) (done : FPath),
      mkdirAllAux fs done m rest = none →
      ∃ t, t ≠ [] ∧ t <+: rest ∧
        ∃ c mm mt, lookupF fs (done ++ t) = some (.file c mm mt) := by
  intro rest
  induction rest with
  | nil => intro fs done h; exact Option.noConfusion h
  | cons s rest ih =>
    intro fs done h
    simp only [mkdirAllAux] at h
    cases hl : lookupF fs (done ++ [s]) with
    | none =>
      rw [hl] at h
      obtain ⟨t', ht', hpre', c, mm, mt, hf⟩ := ih _ _ h
      have hne : ¬ ((done ++ [s]) ++ t') = done ++ [s] := by
        intro hc
        have h2 : ((done ++ [s]) ++ t').length = (done ++ [s]).length := by
          rw [hc]
        simp [List.length_append, List.length_eq_zero] at h2
        exact ht' h2
      rw [lookupF_cons, if_neg hne] at hf
      refine ⟨s :: t', by simp, ?_, c, mm, mt, ?_⟩
      · obtain ⟨u, hu⟩ := hpre'
        exact ⟨u, by rw [List.cons_append, hu]⟩
      · rw [← List.singleton_append, ← List.append_assoc]
        exact hf
    | some node =>
      cases node with
      | file c mm mt =>
        exact ⟨[s], by simp, ⟨rest, rfl⟩, c, mm, mt, hl⟩
      | dir md =>
        rw [hl] at h
        obtain ⟨t', ht', hpre', c, mm, mt, hf⟩ := ih _ _ h
        refine ⟨s :: t', by simp, ?_, c, mm, mt, ?_⟩
        · obtain ⟨u, hu⟩ := hpre'
          exact ⟨u, by rw [List.cons_append, hu]⟩
        · rw [← List.singleton_append, ← List.append_assoc]
          exact hf

theorem writeFileF_some_lookup {fs fs' : Fs} {p : FPath} {c : String} {m : Nat}
    (h : writeFileF fs p c m = some fs') :
    (∀ k, k ≠ p → lookupF fs' k = lookupF fs k) ∧
      (∃ mm, lookupF fs' p = some (.file c mm 0)) := by
  cases p with
  | nil => exact Option.noConfusion h
  | cons s rest =>
    simp only [writeFileF] at h
    by_cases hp : (¬ ((s :: rest).dropLast.isEmpty ||
        (match lookupF fs (s :: rest).dropLast with
         | some (.dir _) => true
         | _ => false)) = true)
    · rw [if_pos hp] at h; exact Option.noConfusion h
    · rw [if_neg hp] at h
      cases hl : lookupF fs (s :: rest) with
      | none =>
        rw [hl] at h
        simp only [Option.some.injEq] at h
        subst h
        constructor
        · intro k hk; rw [lookupF_setP, if_neg hk]
        · exact ⟨m, by rw [lookupF_setP, if_pos rfl]⟩
      | some node =>
        cases node with
        | dir md => rw [hl] at h; exact Option.noConfusion h
        | file c0 m0 t0 =>
          rw [hl] at h
          simp only [Option.some.injEq] at h
          subst h
          constructor
          · intro k hk; rw [lookupF_setP, if_neg hk]
          · exact ⟨m0, by rw [lookupF_setP, if_pos rfl]⟩

end FsLemmas

section UnzipLemmas

theorem no_dd_of_hasDotDot_false {name : List String}
    (h : hasDotDot name = false) : ∀ s ∈ name, s ≠ ".." := by
  intro s hs hc
  have h2 := (List.any_eq_false.1 h) s hs
  rw [hc] at h2
  exact h2 containsDD_dd

theorem strStartsWith_self_slash (d : FPath) :
    strStartsWith (pathToStr d) (pathToStr d ++ "/") = false := by
  by_contra hc
  rw [Bool.not_eq_false] at hc
  have hp := List.isPrefixOf_iff_prefix.1 hc
  have hlen := hp.length_le
  rw [String.data_append] at hlen
  have h2 : ("/" : String).data = ['/'] := rfl
  rw [h2] at hlen
  simp [List.length_append] at hlen

theorem entry_inside {dest : FPath} {name : List String}
    (hdd : hasDotDot name = false)
    (hpre : strStartsWith (pathToStr (cleanSegs false (dest ++ name)))
        (pathToStr (cleanSegs false dest) ++ "/") = true) :
    cleanSegs false (dest ++ name) = cleanSegs false dest ++ filterSegs name ∧
      filterSegs name ≠ [] := by
  have heq := cleanSegs_append_no_dd false dest name (no_dd_of_hasDotDot_false hdd)
  refine ⟨heq, ?_⟩
  intro hnil
  rw [hnil, List.append_nil] at heq
  rw [heq, strStartsWith_self_slash] at hpre
  exact Bool.noConfusion hpre

theorem strictlyInside_of_append {dest : FPath} {F : List String} (hF : F ≠ []) :
    strictlyInside dest (cleanSegs false dest ++ F) := by
  refine ⟨List.prefix_append _ _, ?_⟩
  intro h
  exact hF (List.append_right_eq_self.mp h)

theorem not_strictlyInside_of_prefix {dest q : FPath}
    (h : q <+: cleanSegs false dest) : ¬ strictlyInside dest q := by
  rintro ⟨h1, h2⟩
  exact h2 (List.IsPrefix.eq_of_length h (Nat.le_antisymm h.length_le h1.length_le))

/-- If an ancestor of the destination chain is missing from the current
filesystem although the loop only ever touched the strict inside of the
destination, then `os.MkdirAll` on a path extending the destination
cannot succeed (contradiction with the state of the base snapshot). -/
theorem no_absent_chain {base fs : Fs} {dest : FPath}
    (Hdiff : ∀ p, lookupF fs p ≠ lookupF base p → strictlyInside dest p)
    (Hbase :
      (∀ q, q ≠ [] → q <+: cleanSegs false dest → ∃ md, lookupF base q = some (.dir md)) ∨
      (∃ q, q ≠ [] ∧ q <+: cleanSegs false dest ∧
        ∃ c mm mt, lookupF base q = some (.file c mm mt)))
    {q : FPath} (hq_ne : q ≠ []) (hq_pre : q <+: cleanSegs false dest)
    (hnone : lookupF fs q = none)
    {target : FPath} {m : Nat} {fs2 : Fs}
    (htarget : cleanSegs false dest <+: target)
    (hmk : mkdirAllF fs target m = some fs2) : False := by
  cases Hbase with
  | inl hdirs =>
    obtain ⟨md, hmd⟩ := hdirs q hq_ne hq_pre
    have hbase_eq : lookupF fs q = lookupF base q := by
      by_contra hne
      exact not_strictlyInside_of_prefix hq_pre (Hdiff q hne)
    rw [hbase_eq, hmd] at hnone
    exact Option.noConfusion hnone
  | inr hfile =>
    obtain ⟨q0, hq0_ne, hq0_pre, c, mm, mt, hq0⟩ := hfile
    have hq0_fs : lookupF fs q0 = some (.file c mm mt) := by
      have heq : lookupF fs q0 = lookupF base q0 := by
        by_contra hne
        exact not_strictlyInside_of_prefix hq0_pre (Hdiff q0 hne)
      rw [heq, hq0]
    have hfail := mkdirAllAux_fail_of_file m target fs [] q0 hq0_ne
      (hq0_pre.trans htarget) ⟨c, mm, mt, by rw [List.nil_append]; exact hq0_fs⟩
    simp only [mkdirAllF] at hmk
    rw [hfail] at hmk
    exact Option.noConfusion hmk

/-- A successful `os.MkdirAll` on a path extending the destination only
changes paths strictly inside the destination (given the invariant and
the state of the base snapshot). -/
theorem mkdir_step_confine {base fs : Fs} {dest target : FPath} {m : Nat}
    (Hdiff : ∀ p, lookupF fs p ≠ lookupF base p → strictlyInside dest p)
    (Hbase :
      (∀ q, q ≠ [] → q <+: cleanSegs false dest → ∃ md, lookupF base q = some (.dir md)) ∨
      (∃ q, q ≠ [] ∧ q <+: cleanSegs false dest ∧
        ∃ c mm mt, lookupF base q = some (.file c mm mt)))
    (htarget : cleanSegs false dest <+: target)
    {fs2 : Fs} (hmk : mkdirAllF fs target m = some fs2) :
    ∀ p, lookupF fs2 p ≠ lookupF base p → strictlyInside dest p := by
  intro p hp
  by_cases hps : lookupF fs2 p = lookupF fs p
  · exact Hdiff p (by rw [← hps]; exact hp)
  · obtain ⟨⟨pre, hpre_ne, hpre_pre, hpeq⟩, hnone, _⟩ :=
      mkdirAllAux_sound m target fs [] fs2 hmk p hps
    rw [List.nil_append] at hpeq
    subst hpeq
    rcases List.prefix_or_prefix_of_prefix hpre_pre htarget with hc | hc
    · exact absurd (no_absent_chain Hdiff Hbase hpre_ne hc hnone htarget hmk) id
    · by_cases heq : p = cleanSegs false dest
      · exact absurd (no_absent_chain Hdiff Hbase hpre_ne
          (show p <+: cleanSegs false dest by rw [heq]) hnone htarget hmk) id
      · exact ⟨hc, heq⟩

/-- Unfolding equation: an entry rejected by one of the two guards of
`unzip` is skipped and the loop continues on the rest. -/
theorem unzipEntries_skip {fs : Fs} {dest : FPath} {e : ZEntry} {rest : List ZEntry}
    (h : entrySkipped dest e) :
    unzipEntries fs dest (e :: rest) = unzipEntries fs dest rest := by
  rcases h with h | h
  · simp only [unzipEntries, if_pos h]
  · by_cases hdd : hasDotDot e.name = true
    · simp only [unzipEntries, if_pos hdd]
    · have h2 : ¬ strStartsWith (pathToStr (cleanSegs false (dest ++ e.name)))
          (pathToStr (cleanSegs false dest) ++ "/") = true := by
        rw [h]; exact Bool.false_ne_true
      simp only [unzipEntries]
      rw [if_neg hdd, if_pos h2]

/-- Unfolding equation for a directory entry that passes both guards. -/
theorem unzipEntries_cons_dir {fs : Fs} {dest : FPath} {e : ZEntry} {rest : List ZEntry}
    (hdd : hasDotDot e.name = false)
    (hpre : strStartsWith (pathToStr (cleanSegs false (dest ++ e.name)))
        (pathToStr (cleanSegs false dest) ++ "/") = true)
    (hd : e.isDir = true) :
    unzipEntries fs dest (e :: rest) =
      unzipEntries ((mkdirAllF fs (cleanSegs false (dest ++ e.name)) e.mode).getD fs)
        dest rest := by
  have h1 : ¬ hasDotDot e.name = true := by rw [hdd]; exact Bool.false_ne_true
  have h2 : ¬ (¬ strStartsWith (pathToStr (cleanSegs false (dest ++ e.name)))
      (pathToStr (cleanSegs false dest) ++ "/") = true) := fun hn => hn hpre
  simp only [unzipEntries]
  rw [if_neg h1, if_neg h2, if_pos hd]

/-- Unfolding equation for a file entry that passes both guards. -/
theorem unzipEntries_cons_file {fs : Fs} {dest : FPath} {e : ZEntry} {rest : List ZEntry}
    (hdd : hasDotDot e.name = false)
    (hpre : strStartsWith (pathToStr (cleanSegs false (dest ++ e.name)))
        (pathToStr (cleanSegs false dest) ++ "/") = true)
    (hd : e.isDir = false) :
    unzipEntries fs dest (e :: rest) =
      match mkdirAllF fs (cleanSegs false (dest ++ e.name)).dropLast 0o755 with
      | none => (fs, false)
      | some fs1 =>
        match writeFileF fs1 (cleanSegs false (dest ++ e.name))
            (if e.readOk then e.content else "") e.mode with
        | none => (fs1, false)
        | some fs2 => if e.readOk then unzipEntries fs2 dest rest else (fs2, false) := by
  have h1 : ¬ hasDotDot e.name = true := by rw [hdd]; exact Bool.false_ne_true
  have h2 : ¬ (¬ strStartsWith (pathToStr (cleanSegs false (dest ++ e.name)))
      (pathToStr (cleanSegs false dest) ++ "/") = true) := fun hn => hn hpre
  have h3 : ¬ e.isDir = true := by rw [hd]; exact Bool.false_ne_true
  simp only [unzipEntries]
  rw [if_neg h1, if_neg h2, if_neg h3]

/-- Invariant of the extraction loop: starting from a filesystem that
differs from the base snapshot only strictly inside the destination,
every path the loop changes remains strictly inside the destination. -/
theorem unzipEntries_confine {dest : FPath} {base : Fs}
    (Hbase :
      (∀ q, q ≠ [] → q <+: cleanSegs false dest → ∃ md, lookupF base q = some (.dir md)) ∨
      (∃ q, q ≠ [] ∧ q <+: cleanSegs false dest ∧
        ∃ c mm mt, lookupF base q = some (.file c mm mt))) :
    ∀ (entries : List ZEntry) (fs : Fs),
      (∀ p, lookupF fs p ≠ lookupF base p → strictlyInside dest p) →
      ∀ p, lookupF (unzipEntries fs dest entries).1 p ≠ lookupF base p →
        strictlyInside dest p := by
  intro entries
  induction entries with
  | nil => intro fs Hdiff p hp; exact Hdiff p hp
  | cons e rest ih =>
    intro fs Hdiff p hp
    by_cases hdd : hasDotDot e.name = true
    · rw [unzipEntries_skip (Or.inl hdd)] at hp
      exact ih fs Hdiff p hp
    · have hdd' : hasDotDot e.name = false := by
        cases hv : hasDotDot e.name
        · rfl
        · exact absurd hv hdd
      by_cases hpre : strStartsWith (pathToStr (cleanSegs false (dest ++ e.name)))
          (pathToStr (cleanSegs false dest) ++ "/") = true
      · have hin := entry_inside hdd' hpre
        have htarget : cleanSegs false dest <+: cleanSegs false (dest ++ e.name) := by
          rw [hin.1]; exact List.prefix_append _ _
        by_cases hd : e.isDir = true
        · rw [unzipEntries_cons_dir hdd' hpre hd] at hp
          cases hmk : mkdirAllF fs (cleanSegs false (dest ++ e.name)) e.mode with
          | none =>
            simp only [hmk, Option.getD_none] at hp
            exact ih fs Hdiff p hp
          | some fs2 =>
            simp only [hmk, Option.getD_some] at hp
            exact ih fs2 (mkdir_step_confine Hdiff Hbase htarget hmk) p hp
        · have hd' : e.isDir = false := by
            cases hv : e.isDir
            · rfl
            · exact absurd hv hd
          rw [unzipEntries_cons_file hdd' hpre hd'] at hp
          have hdrop : cleanSegs false dest <+: (cleanSegs false (dest ++ e.name)).dropLast := by
            rw [hin.1, List.dropLast_append_of_ne_nil _ hin.2]
            exact List.prefix_append _ _
          cases hmk : mkdirAllF fs (cleanSegs false (dest ++ e.name)).dropLast 0o755 with
          | none =>
            simp only [hmk] at hp
            exact Hdiff p hp
          | some fs1 =>
            simp only [hmk] at hp
            have Hdiff1 := mkdir_step_confine Hdiff Hbase hdrop hmk
            cases hw : writeFileF fs1 (cleanSegs false (dest ++ e.name))
                (if e.readOk then e.content else "") e.mode with
            | none =>
              simp only [hw] at hp
              exact Hdiff1 p hp
            | some fs2 =>
              simp only [hw] at hp
              have Hdiff2 : ∀ p2, lookupF fs2 p2 ≠ lookupF base p2 →
                  strictlyInside dest p2 := by
                intro p2 hp2
                by_cases hpe : p2 = cleanSegs false (dest ++ e.name)
                · subst hpe
                  rw [hin.1]
                  exact strictlyInside_of_append hin.2
                · have hsame := (writeFileF_some_lookup hw).1 p2 hpe
                  exact Hdiff1 p2 (by rw [← hsame]; exact hp2)
              cases hro : e.readOk with
              | true =>
                rw [hro, if_pos rfl] at hp
                exact ih fs2 Hdiff2 p hp
              | false =>
                rw [hro, if_neg Bool.false_ne_true] at hp
                exact Hdiff2 p hp
      · have hpre' : strStartsWith (pathToStr (cleanSegs false (dest ++ e.name)))
            (pathToStr (cleanSegs false dest) ++ "/") = false := by
          cases hv : strStartsWith (pathToStr (cleanSegs false (dest ++ e.name)))
            (pathToStr (cleanSegs false dest) ++ "/")
          · rfl
          · exact absurd hv hpre
        rw [unzipEntries_skip (Or.inr hpre')] at hp
        exact ih fs Hdiff p hp

end UnzipLemmas

section ClaimHelpers

theorem dbGet_filter_self (db : List DRec) (i : String) :
    dbGet (db.filter fun x => ¬ x.id = i) i = none := by
  induction db with
  | nil => rfl
  | cons r rest ih =>
    rw [List.filter_cons]
    by_cases h : r.id = i
    · rw [if_neg (by simpa using h)]
      exact ih
    · rw [if_pos (by simpa using h)]
      simp only [dbGet] at ih ⊢
      rw [List.find?_cons_of_neg _ (by simpa using h)]
      exact ih

theorem dbInsert_false (db : List DRec) (r : DRec) : dbInsert db r false = none := rfl

end ClaimHelpers

/-- Claim C1: for every archive and destination directory, extraction
never writes any file or directory outside the destination directory —
every path whose node changes is either strictly inside the cleaned
destination, or a directory of the destination chain itself created
(mode `0755`) by the initial `os.MkdirAll(dest)`; and every entry whose
name contains a `..` traversal segment, or whose resolved path fails the
containment check, is skipped without aborting the extraction of the
remaining entries. -/
theorem c1_extraction_confined :
    (∀ (fs : Fs) (dest : FPath) (a : ZArchive) (p : FPath),
      lookupF (unzipF fs dest a).1 p ≠ lookupF fs p →
        strictlyInside dest p ∨
          (p <+: cleanSegs false dest ∧ p ≠ [] ∧ lookupF fs p = none ∧
            lookupF (unzipF fs dest a).1 p = some (.dir 0o755)))
    ∧
    (∀ (fs : Fs) (dest : FPath) (e : ZEntry) (es : List ZEntry),
      entrySkipped dest e →
        unzipF fs dest ⟨true, e :: es⟩ = unzipF fs dest ⟨true, es⟩) := by
  constructor
  · intro fs dest a p hchg
    by_cases hok : a.ok = true
    · cases hmk : mkdirAllF fs (cleanSegs false dest) 0o755 with
      | none =>
        have hunf : unzipF fs dest a = unzipEntries fs dest a.entries := by
          simp only [unzipF]
          rw [if_neg (not_not_intro hok), hmk]
          rfl
        rw [hunf] at hchg
        left
        refine unzipEntries_confine (Or.inr ?_) a.entries fs
          (fun q hq => absurd rfl hq) p hchg
        obtain ⟨t, ht, htp, c, mm, mt, hf⟩ :=
          mkdirAllAux_none_file 0o755 (cleanSegs false dest) fs [] hmk
        exact ⟨t, ht, htp, c, mm, mt, by rwa [List.nil_append] at hf⟩
      | some fs' =>
        have hunf : unzipF fs dest a = unzipEntries fs' dest a.entries := by
          simp only [unzipF]
          rw [if_neg (not_not_intro hok), hmk]
          rfl
        rw [hunf] at hchg ⊢
        by_cases hb : lookupF (unzipEntries fs' dest a.entries).1 p = lookupF fs' p
        · right
          rw [hb] at hchg
          obtain ⟨⟨pre, hpre_ne, hpre_pre, hpeq⟩, hnone, hdir⟩ :=
            mkdirAllAux_sound 0o755 (cleanSegs false dest) fs [] fs' hmk p hchg
          rw [List.nil_append] at hpeq
          subst hpeq
          exact ⟨hpre_pre, hpre_ne, hnone, by rw [hb]; exact hdir⟩
        · left
          refine unzipEntries_confine (Or.inl ?_) a.entries fs'
            (fun q hq => absurd rfl hq) p hb
          intro q hq hqpre
          have h3 := mkdirAllAux_chain_dirs 0o755 (cleanSegs false dest) fs [] fs' hmk q hq hqpre
          rwa [List.nil_append] at h3
    · have hunf : unzipF fs dest a = (fs, false) := by
        simp only [unzipF]
        rw [if_pos hok]
      rw [hunf] at hchg
      exact absurd rfl hchg
  · intro fs dest e es hsk
    simp only [unzipF]
    rw [if_neg (not_not_intro trivial), if_neg (not_not_intro trivial)]
    exact unzipEntries_skip hsk

/-- Witness for C1 at concrete inputs: a safe entry's written path is
strictly inside the destination, and an entry with a `..` segment is
skipped without affecting the rest of the extraction. -/
theorem c1_witness :
    (lookupF (unzipF [] ["deployments", "s"]
        ⟨true, [⟨["ok.txt"], false, "y", 420, true⟩]⟩).1
        ["deployments", "s", "ok.txt"] ≠
      lookupF [] ["deployments", "s", "ok.txt"] ∧
      (strictlyInside ["deployments", "s"] ["deployments", "s", "ok.txt"] ∨
        (["deployments", "s", "ok.txt"] <+: cleanSegs false ["deployments", "s"] ∧
          ["deployments", "s", "ok.txt"] ≠ [] ∧
          lookupF [] ["deployments", "s", "ok.txt"] = none ∧
          lookupF (unzipF [] ["deployments", "s"]
            ⟨true, [⟨["ok.txt"], false, "y", 420, true⟩]⟩).1
            ["deployments", "s", "ok.txt"] = some (.dir 0o755)))) ∧
    (entrySkipped ["deployments", "s"] ⟨["..", "evil"], false, "x", 420, true⟩ ∧
      unzipF [] ["deployments", "s"]
          ⟨true, [⟨["..", "evil"], false, "x", 420, true⟩]⟩ =
        unzipF [] ["deployments", "s"] ⟨true, []⟩) :=
  ⟨⟨by decide,
    c1_extraction_confined.1 [] ["deployments", "s"]
      ⟨true, [⟨["ok.txt"], false, "y", 420, true⟩]⟩
      ["deployments", "s", "ok.txt"] (by decide)⟩,
   ⟨by decide,
    c1_extraction_confined.2 [] ["deployments", "s"]
      ⟨["..", "evil"], false, "x", 420, true⟩ [] (by decide)⟩⟩

/-- Claim C2 (counterexample): an upload whose extraction fails midway
(first entry extracted, second entry corrupt) returns the extraction
error and persists nothing, but the partially-created deployment
directory — including the already extracted file — is left on disk,
contradicting the claim that it is removed. -/
theorem c2_counterexample :
    (uploadModel [] [] true "site.zip"
      ⟨true, [⟨["a.html"], false, "hi", 420, true⟩, ⟨["bad"], false, "x", 420, false⟩]⟩
      "s1" true 1 2).1 = UpResult.unzipFailed ∧
    (uploadModel [] [] true "site.zip"
      ⟨true, [⟨["a.html"], false, "hi", 420, true⟩, ⟨["bad"], false, "x", 420, false⟩]⟩
      "s1" true 1 2).2.1 = [] ∧
    lookupF (uploadModel [] [] true "site.zip"
      ⟨true, [⟨["a.html"], false, "hi", 420, true⟩, ⟨["bad"], false, "x", 420, false⟩]⟩
      "s1" true 1 2).2.2 ["deployments", "s1"] = some (FKind.dir 493) ∧
    lookupF (uploadModel [] [] true "site.zip"
      ⟨true, [⟨["a.html"], false, "hi", 420, true⟩, ⟨["bad"], false, "x", 420, false⟩]⟩
      "s1" true 1 2).2.2 ["deployments", "s1", "a.html"] =
        some (FKind.file "hi" 420 0) := by
  decide

/-- Claim C2 (amended): on extraction failure the create operation
returns the extractor's error and persists no metadata record, but it
does **not** remove the partially-created deployment directory — the
filesystem is left exactly as extraction left it (only a later
persistence failure triggers directory removal). -/
theorem c2_amended_no_cleanup (db : List DRec) (fs : Fs) (declaredName : String)
    (archive : ZArchive) (siteID : String) (insertOk : Bool) (t1 t2 : Nat)
    (hname : declaredName ≠ "")
    (hunzip : (unzipF fs ["deployments", siteID] archive).2 = false) :
    uploadModel db fs true declaredName archive siteID insertOk t1 t2 =
      (.unzipFailed, db, (unzipF fs ["deployments", siteID] archive).1) := by
  have hcond : ¬ ((true : Bool) = false ∨ declaredName = "") := by
    rintro (h | h)
    · exact Bool.noConfusion h
    · exact hname h
  rcases hu : unzipF fs ["deployments", siteID] archive with ⟨fs1, okv⟩
  rw [hu] at hunzip
  have hok : okv = false := hunzip
  subst hok
  simp only [uploadModel]
  rw [if_neg hcond]
  simp only [hu]

/-- Witness for the amended C2. -/
theorem c2_amended_witness :
    (("site.zip" : String) ≠ "" ∧
      (unzipF [] ["deployments", "s1"]
        ⟨true, [⟨["bad"], false, "x", 420, false⟩]⟩).2 = false) ∧
    uploadModel [] [] true "site.zip"
        ⟨true, [⟨["bad"], false, "x", 420, false⟩]⟩ "s1" true 1 2 =
      (.unzipFailed, [],
        (unzipF [] ["deployments", "s1"]
          ⟨true, [⟨["bad"], false, "x", 420, false⟩]⟩).1) :=
  ⟨⟨by decide, by decide⟩,
   c2_amended_no_cleanup [] [] "site.zip"
     ⟨true, [⟨["bad"], false, "x", 420, false⟩]⟩ "s1" true 1 2
     (by decide) (by decide)⟩

/-- Claim C3: in both create (upload) and rollback, when the files were
written successfully but persisting the metadata record fails, the
just-created deployment directory is removed before the error is
surfaced (every path under it is gone), and the metadata table is
unchanged. -/
theorem c3_persist_failure_cleanup :
    (∀ (db : List DRec) (fs : Fs) (declaredName : String) (archive : ZArchive)
        (siteID : String) (t1 t2 : Nat),
      declaredName ≠ "" →
      (unzipF fs ["deployments", siteID] archive).2 = true →
      uploadModel db fs true declaredName archive siteID false t1 t2 =
        (.insertFailed, db,
          removeAllF (unzipF fs ["deployments", siteID] archive).1
            ["deployments", siteID]) ∧
      ∀ p, ["deployments", siteID] <+: p →
        lookupF (uploadModel db fs true declaredName archive siteID false t1 t2).2.2 p =
          none)
    ∧
    (∀ (db : List DRec) (fs : Fs) (sourceID newID : String) (t : Nat)
        (src : DRec) (node : FKind),
      sourceID ≠ "" →
      dbGet db sourceID = some src →
      lookupF fs src.path = some node →
      (copyDirF fs src.path ["deployments", newID]).2 = true →
      rollbackModel db fs sourceID newID false t =
        (.insertFailed, db,
          removeAllF (copyDirF fs src.path ["deployments", newID]).1
            ["deployments", newID]) ∧
      ∀ p, ["deployments", newID] <+: p →
        lookupF (rollbackModel db fs sourceID newID false t).2.2 p = none) := by
  constructor
  · intro db fs declaredName archive siteID t1 t2 hname hunzip
    have hcond : ¬ ((true : Bool) = false ∨ declaredName = "") := by
      rintro (h | h)
      · exact Bool.noConfusion h
      · exact hname h
    rcases hu : unzipF fs ["deployments", siteID] archive with ⟨fs1, okv⟩
    rw [hu] at hunzip
    have hok : okv = true := hunzip
    subst hok
    have hmod : uploadModel db fs true declaredName archive siteID false t1 t2 =
        (.insertFailed, db, removeAllF fs1 ["deployments", siteID]) := by
      simp only [uploadModel]
      rw [if_neg hcond]
      simp only [hu, dbInsert_false]
    simp only [hu]
    refine ⟨hmod, ?_⟩
    intro p hp
    rw [hmod]
    exact lookupF_removeAllF_inside fs1 _ p hp
  · intro db fs sourceID newID t src node hsid hget hstat hcopy
    rcases hcp : copyDirF fs src.path ["deployments", newID] with ⟨fs2, okc⟩
    rw [hcp] at hcopy
    have hok : okc = true := hcopy
    subst hok
    have hmod : rollbackModel db fs sourceID newID false t =
        (.insertFailed, db, removeAllF fs2 ["deployments", newID]) := by
      simp only [rollbackModel]
      rw [if_neg hsid]
      simp only [hget, hstat, hcp, dbInsert_false]
    simp only [hcp]
    refine ⟨hmod, ?_⟩
    intro p hp
    rw [hmod]
    exact lookupF_removeAllF_inside fs2 _ p hp

/-- Witness for C3 at concrete inputs: after a failed INSERT, the
extracted (resp. copied) file is gone from the filesystem. -/
theorem c3_witness :
    ((("a.zip" : String) ≠ "" ∧
      (unzipF [] ["deployments", "s1"]
        ⟨true, [⟨["f"], false, "x", 420, true⟩]⟩).2 = true) ∧
      lookupF (uploadModel [] [] true "a.zip"
          ⟨true, [⟨["f"], false, "x", 420, true⟩]⟩ "s1" false 1 2).2.2
        ["deployments", "s1", "f"] = none) ∧
    ((dbGet [⟨"a", "s.zip", 0, ["deployments", "a"]⟩] "a" =
        some ⟨"a", "s.zip", 0, ["deployments", "a"]⟩ ∧
      (copyDirF [(["deployments"], FKind.dir 493), (["deployments", "a"], FKind.dir 493),
          (["deployments", "a", "f"], FKind.file "X" 420 5)]
        ["deployments", "a"] ["deployments", "b"]).2 = true) ∧
      lookupF (rollbackModel [⟨"a", "s.zip", 0, ["deployments", "a"]⟩]
          [(["deployments"], FKind.dir 493), (["deployments", "a"], FKind.dir 493),
            (["deployments", "a", "f"], FKind.file "X" 420 5)]
          "a" "b" false 9).2.2 ["deployments", "b", "f"] = none) :=
  ⟨⟨⟨by decide, by decide⟩,
    (c3_persist_failure_cleanup.1 [] [] "a.zip"
      ⟨true, [⟨["f"], false, "x", 420, true⟩]⟩ "s1" 1 2
      (by decide) (by decide)).2 ["deployments", "s1", "f"] (by decide)⟩,
   ⟨⟨by decide, by decide⟩,
    (c3_persist_failure_cleanup.2 [⟨"a", "s.zip", 0, ["deployments", "a"]⟩]
      [(["deployments"], FKind.dir 493), (["deployments", "a"], FKind.dir 493),
        (["deployments", "a", "f"], FKind.file "X" 420 5)]
      "a" "b" 9 ⟨"a", "s.zip", 0, ["deployments", "a"]⟩ (FKind.dir 493)
      (by decide) (by decide) (by decide) (by decide)).2
      ["deployments", "b", "f"] (by decide)⟩⟩

/-- Claim C4: an upload whose archive carries an empty (or absent)
declared filename is rejected with a 400-class "Invalid file" result
and no deployment is created: `mime/multipart.ReadForm` stores a part
with an empty filename as a plain form value, so `r.FormFile("file")`
fails, and the handler answers 400 before touching the filesystem or
the database. -/
theorem c4_empty_name_rejected (db : List DRec) (fs : Fs) (filePresent : Bool)
    (declaredName : String) (archive : ZArchive) (siteID : String)
    (insertOk : Bool) (t1 t2 : Nat)
    (h : declaredName = "" ∨ filePresent = false) :
    uploadModel db fs filePresent declaredName archive siteID insertOk t1 t2 =
      (.invalidFile, db, fs) := by
  simp only [uploadModel]
  rcases h with h | h
  · rw [if_pos (Or.inr h)]
  · rw [if_pos (Or.inl h)]

/-- Witness for C4: an upload with an empty declared filename yields the
400 result and leaves both stores untouched. -/
theorem c4_witness :
    (("" : String) = "" ∨ (true : Bool) = false) ∧
    uploadModel [] [] true ""
        ⟨true, [⟨["index.html"], false, "hi", 420, true⟩]⟩ "s1" true 1 2 =
      (.invalidFile, [], []) :=
  ⟨Or.inl rfl,
   c4_empty_name_rejected [] [] true ""
     ⟨true, [⟨["index.html"], false, "hi", 420, true⟩]⟩ "s1" true 1 2 (Or.inl rfl)⟩

/-- Claim C5 (code bug, demonstrated): the resolver serves a regular
file whose normalized candidate path `deploymentsfoo/secret` lies
outside the deployments root, because the security check
`strings.HasPrefix(absFullPath, absDeployments)` lacks a trailing
path-separator boundary: `/srv/deploymentsfoo/secret` has the bare
string prefix `/srv/deployments`.  The claim (and the code's own
"Security check" comment) requires `NotFound` here. -/
theorem c5_escape_served :
    resolveModel ["srv"]
        [(["deployments"], FKind.dir 493),
          (["deploymentsfoo"], FKind.dir 493),
          (["deploymentsfoo", "secret"], FKind.file "TOPSECRET" 420 7)]
        ["x", "..", "..", "deploymentsfoo", "secret"] = SResult.ok "TOPSECRET" 7 ∧
    cleanSegs false (["deployments", "x"] ++ ["..", "..", "deploymentsfoo", "secret"]) =
      ["deploymentsfoo", "secret"] ∧
    ¬ (["deployments"] : FPath) <+: ["deploymentsfoo", "secret"] := by
  decide

/-- Claim C8: deleting a single deployment id answers `NotFound` and
changes nothing when no record exists; otherwise the metadata record is
deleted and directory removal is attempted afterwards, and even when
removal fails (`rOk = false`) the operation still reports success (with
only a warning) — the record is gone either way. -/
theorem c8_delete_one :
    (∀ (db : List DRec) (fs : Fs) (idStr : String) (dOk rOk : Bool),
      idStr ≠ "" → dbGet db idStr = none →
      deleteOneModel db fs idStr dOk rOk = (.notFound, db, fs))
    ∧
    (∀ (db : List DRec) (fs : Fs) (idStr : String) (rOk : Bool) (r : DRec),
      idStr ≠ "" → dbGet db idStr = some r →
      deleteOneModel db fs idStr true rOk =
        (.ok (!rOk), db.filter fun x => ¬ x.id = idStr,
          if rOk then removeAllF fs r.path else fs) ∧
      dbGet (deleteOneModel db fs idStr true rOk).2.1 idStr = none) := by
  constructor
  · intro db fs idStr dOk rOk hid hnone
    simp only [deleteOneModel]
    rw [if_neg hid]
    simp only [hnone]
  · intro db fs idStr rOk r hid hsome
    have hmod : deleteOneModel db fs idStr true rOk =
        (.ok (!rOk), db.filter fun x => ¬ x.id = idStr,
          if rOk then removeAllF fs r.path else fs) := by
      simp only [deleteOneModel]
      rw [if_neg hid]
      simp only [hsome]
      rw [if_pos trivial]
      cases rOk
      · rw [if_neg Bool.false_ne_true, if_neg Bool.false_ne_true]; rfl
      · rw [if_pos rfl, if_pos rfl]; rfl
    refine ⟨hmod, ?_⟩
    rw [hmod]
    exact dbGet_filter_self db idStr

/-- Witness for C8: deleting an unknown id is `NotFound`; deleting a
known id whose directory removal fails still succeeds with a warning,
with the record gone and the directory left behind. -/
theorem c8_witness :
    ((("zzz" : String) ≠ "" ∧ dbGet [] "zzz" = none) ∧
      deleteOneModel [] [] "zzz" true true = (.notFound, [], [])) ∧
    ((("a" : String) ≠ "" ∧
      dbGet [⟨"a", "s.zip", 0, ["deployments", "a"]⟩] "a" =
        some ⟨"a", "s.zip", 0, ["deployments", "a"]⟩) ∧
      deleteOneModel [⟨"a", "s.zip", 0, ["deployments", "a"]⟩]
          [(["deployments", "a"], FKind.dir 493)] "a" true false =
        (.ok true, [], [(["deployments", "a"], FKind.dir 493)])) :=
  ⟨⟨⟨by decide, by decide⟩,
    c8_delete_one.1 [] [] "zzz" true true (by decide) (by decide)⟩,
   ⟨⟨by decide, by decide⟩,
    ((c8_delete_one.2 [⟨"a", "s.zip", 0, ["deployments", "a"]⟩]
      [(["deployments", "a"], FKind.dir 493)] "a" false
      ⟨"a", "s.zip", 0, ["deployments", "a"]⟩
      (by decide) (by decide)).1).trans (by decide)⟩⟩

/-- Claim C9: delete-all on an empty table reports the distinct
"nothing to delete" result (not an empty bulk success), and delete-all
is idempotent: whatever the starting state, a second call in a row
yields "nothing to delete" with metadata count 0. -/
theorem c9_delete_all_idempotent (db : List DRec) (fs : Fs) (f1 f2 : List FPath) :
    (deleteAllModel (deleteAllModel db fs f1).2.1 (deleteAllModel db fs f1).2.2 f2).1 =
      DelAllResult.nothingToDelete ∧
    (deleteAllModel (deleteAllModel db fs f1).2.1 (deleteAllModel db fs f1).2.2 f2).2.1 =
      [] ∧
    (db = [] → deleteAllModel db fs f1 = (.nothingToDelete, db, fs)) := by
  have hmid : (deleteAllModel db fs f1).2.1 = [] := by
    by_cases h : db = []
    · subst h
      unfold deleteAllModel
      rw [if_pos rfl]
    · unfold deleteAllModel
      rw [if_neg h]
  refine ⟨?_, ?_, ?_⟩
  · rw [hmid]
    unfold deleteAllModel
    rw [if_pos rfl]
  · rw [hmid]
    unfold deleteAllModel
    rw [if_pos rfl]
  · intro h
    subst h
    unfold deleteAllModel
    rw [if_pos rfl]

/-- Witness for C9 at concrete inputs. -/
theorem c9_witness :
    (deleteAllModel
        (deleteAllModel [⟨"a", "s.zip", 0, ["deployments", "a"]⟩] [] []).2.1
        (deleteAllModel [⟨"a", "s.zip", 0, ["deployments", "a"]⟩] [] []).2.2 []).1 =
      DelAllResult.nothingToDelete ∧
    deleteAllModel [] [] [] = (.nothingToDelete, [], []) :=
  ⟨(c9_delete_all_idempotent [⟨"a", "s.zip", 0, ["deployments", "a"]⟩] [] [] []).1,
   (c9_delete_all_idempotent [] [] [] []).2.2 rfl⟩

/-- Claim C10: on a successful upload the JSON response record and the
persisted row agree on id, filename and path, but the response record
is a second, separate `models.NewDeployment` built after the INSERT, so
its timestamp is the later clock read `t2` while the row stores `t1`;
whenever the two clock reads differ, the records differ. -/
theorem c10_response_vs_persisted (db : List DRec) (fs : Fs) (declaredName : String)
    (archive : ZArchive) (siteID : String) (t1 t2 : Nat)
    (hname : declaredName ≠ "")
    (hunzip : (unzipF fs ["deployments", siteID] archive).2 = true)
    (hfresh : db.all (fun x => x.id != siteID) = true) :
    uploadModel db fs true declaredName archive siteID true t1 t2 =
      (.ok ⟨siteID, declaredName, t2, ["deployments", siteID]⟩,
        (⟨siteID, declaredName, t1, ["deployments", siteID]⟩ : DRec) :: db,
        (unzipF fs ["deployments", siteID] archive).1) ∧
    (t1 ≠ t2 →
      (⟨siteID, declaredName, t2, ["deployments", siteID]⟩ : DRec) ≠
        ⟨siteID, declaredName, t1, ["deployments", siteID]⟩) := by
  constructor
  · have hcond : ¬ ((true : Bool) = false ∨ declaredName = "") := by
      rintro (h | h)
      · exact Bool.noConfusion h
      · exact hname h
    rcases hu : unzipF fs ["deployments", siteID] archive with ⟨fs1, okv⟩
    rw [hu] at hunzip
    have hok : okv = true := hunzip
    subst hok
    simp only [uploadModel]
    rw [if_neg hcond]
    simp only [hu, if_neg hname, dbInsert]
    rw [if_pos (by rw [Bool.true_and]; exact hfresh)]
  · intro hne hcontra
    exact hne (congrArg DRec.timestamp hcontra).symm

/-- Witness for C10: with clock reads 1 and 2 the persisted row carries
timestamp 1 and the response carries timestamp 2, and they differ. -/
theorem c10_witness :
    ((("a.zip" : String) ≠ "" ∧
      (unzipF [] ["deployments", "s1"]
        ⟨true, [⟨["f"], false, "x", 420, true⟩]⟩).2 = true ∧
      ([] : List DRec).all (fun x => x.id != "s1") = true) ∧
      uploadModel [] [] true "a.zip"
          ⟨true, [⟨["f"], false, "x", 420, true⟩]⟩ "s1" true 1 2 =
        (.ok ⟨"s1", "a.zip", 2, ["deployments", "s1"]⟩,
          [⟨"s1", "a.zip", 1, ["deployments", "s1"]⟩],
          (unzipF [] ["deployments", "s1"]
            ⟨true, [⟨["f"], false, "x", 420, true⟩]⟩).1)) ∧
    (⟨"s1", "a.zip", 2, ["deployments", "s1"]⟩ : DRec) ≠
      ⟨"s1", "a.zip", 1, ["deployments", "s1"]⟩ :=
  ⟨⟨⟨by decide, by decide, by decide⟩,
    (c10_response_vs_persisted [] [] "a.zip"
      ⟨true, [⟨["f"], false, "x", 420, true⟩]⟩ "s1" 1 2
      (by decide) (by decide) (by decide)).1⟩,
   (c10_response_vs_persisted [] [] "a.zip"
      ⟨true, [⟨["f"], false, "x", 420, true⟩]⟩ "s1" 1 2
      (by decide) (by decide) (by decide)).2 (by decide)⟩

section CopyLemmas

theorem lookupF_eq_none_iff {fs : Fs} {q : FPath} :
    lookupF fs q = none ↔ ∀ e ∈ fs, e.1 ≠ q := by
  simp only [lookupF]
  cases hfind : fs.find? fun e => e.1 = q with
  | none =>
    simp only [Option.map_none']
    constructor
    · intro _ e he heq
      have h2 := List.find?_eq_none.1 hfind e he
      simp [heq] at h2
    · intro _; trivial
  | some e =>
    simp only [Option.map_some']
    constructor
    · intro h; exact Option.noConfusion h
    · intro h
      have h1 : e.1 = q := by simpa using List.find?_some hfind
      exact absurd h1 (h e (List.mem_of_find?_eq_some hfind))

theorem mkdirAllAux_nodup (m : Nat) :
    ∀ (rest : List String) (fs : Fs) (done : FPath) (fs' : Fs),
      mkdirAllAux fs done m rest = some fs' →
      (fs.map (·.1)).Nodup → (fs'.map (·.1)).Nodup := by
  intro rest
  induction rest with
  | nil =>
    intro fs done fs' h hnd
    simp only [mkdirAllAux, Option.some.injEq] at h
    rw [← h]
    exact hnd
  | cons s rest ih =>
    intro fs done fs' h hnd
    simp only [mkdirAllAux] at h
    cases hl : lookupF fs (done ++ [s]) with
    | none =>
      rw [hl] at h
      refine ih _ _ _ h ?_
      rw [List.map_cons, List.nodup_cons]
      refine ⟨?_, hnd⟩
      intro hmem
      obtain ⟨e, he, heq⟩ := List.mem_map.1 hmem
      exact (lookupF_eq_none_iff.1 hl) e he heq
    | some node =>
      cases node with
      | file c mm mt => rw [hl] at h; exact Option.noConfusion h
      | dir md => rw [hl] at h; exact ih _ _ _ h hnd

theorem prefix_append_drop {src k : FPath} (h : src <+: k) :
    src ++ k.drop src.length = k := by
  obtain ⟨t, rfl⟩ := h
  rw [List.drop_left]

theorem mem_copyEntries {fs : Fs} {src dst : FPath} {kv : FPath × FKind} :
    kv ∈ copyEntries fs src dst ↔
      ∃ e ∈ fs, src <+: e.1 ∧ kv = (dst ++ e.1.drop src.length, rebaseK e.2) := by
  constructor
  · intro h
    obtain ⟨e, he, hf⟩ := List.mem_filterMap.1 h
    by_cases hp : src <+: e.1
    · rw [if_pos hp] at hf
      exact ⟨e, he, hp, (Option.some.inj hf).symm⟩
    · rw [if_neg hp] at hf
      exact Option.noConfusion hf
  · rintro ⟨e, he, hp, rfl⟩
    exact List.mem_filterMap.2 ⟨e, he, by rw [if_pos hp]⟩

theorem copyEntries_key_nodup {fs : Fs} (src dst : FPath)
    (h : (fs.map (·.1)).Nodup) :
    ((copyEntries fs src dst).map (·.1)).Nodup := by
  induction fs with
  | nil => exact List.nodup_nil
  | cons e rest ih =>
    rw [List.map_cons, List.nodup_cons] at h
    simp only [copyEntries, List.filterMap_cons]
    by_cases hp : src <+: e.1
    · rw [if_pos hp]
      rw [List.map_cons, List.nodup_cons]
      refine ⟨?_, ih h.2⟩
      intro hmem
      obtain ⟨kv, hkv, hkeq⟩ := List.mem_map.1 hmem
      obtain ⟨e2, he2, hp2, rfl⟩ := mem_copyEntries.1 hkv
      have hdropeq : e.1.drop src.length = e2.1.drop src.length :=
        List.append_cancel_left hkeq.symm
      have : e.1 = e2.1 := by
        rw [← prefix_append_drop hp, ← prefix_append_drop hp2, hdropeq]
      exact h.1 (this ▸ List.mem_map.2 ⟨e2, he2, rfl⟩)
    · rw [if_neg hp]
      exact ih h.2

theorem applyCopies_lookup_not_mem :
    ∀ (l : List (FPath × FKind)) (fs : Fs) (k : FPath),
      k ∉ l.map (·.1) →
      lookupF (applyCopies l fs) k = lookupF fs k := by
  intro l
  induction l with
  | nil => intro fs k _; rfl
  | cons e rest ih =>
    intro fs k hk
    rw [List.map_cons, List.mem_cons] at hk
    push_neg at hk
    simp only [applyCopies]
    rw [ih (setP fs e.1 e.2) k hk.2, lookupF_setP, if_neg hk.1]

theorem applyCopies_lookup_mem :
    ∀ (l : List (FPath × FKind)) (fs : Fs) (k : FPath) (v : FKind),
      (l.map (·.1)).Nodup → (k, v) ∈ l →
      lookupF (applyCopies l fs) k = some v := by
  intro l
  induction l with
  | nil => intro fs k v _ h; exact absurd h (List.not_mem_nil _)
  | cons e rest ih =>
    intro fs k v hnd hmem
    rw [List.map_cons, List.nodup_cons] at hnd
    simp only [applyCopies]
    rcases List.mem_cons.1 hmem with h | h
    · have hk : e.1 = k := by rw [← h]
      have hv : e.2 = v := by rw [← h]
      rw [applyCopies_lookup_not_mem rest (setP fs e.1 e.2) k (hk ▸ hnd.1),
        lookupF_setP, if_pos hk.symm, hv]
    · exact ih (setP fs e.1 e.2) k v hnd.2 h

end CopyLemmas

/-- Claim C7: a rollback of a source deployment whose record and
directory both exist creates a new deployment under the freshly
generated id (distinct from the source id, by id freshness), whose
directory holds a copy of every file of the source tree with content
and per-file permission mode preserved, whose display name is
"[ROLLBACK] " plus the source name; the new record is persisted and the
source deployment's record stays listed and its files stay unchanged.
Hypotheses: the filesystem map has no duplicate paths, the chain of the
new directory is free of regular files (so `os.MkdirAll` succeeds), the
new id is fresh, and the source path does not overlap
`deployments/<newID>` (ids are distinct 128-bit identifiers). -/
theorem c7_rollback (db : List DRec) (fs : Fs) (sourceID newID : String) (t : Nat)
    (src : DRec) (md : Nat)
    (hsid : sourceID ≠ "")
    (hnodup : (fs.map (·.1)).Nodup)
    (hget : dbGet db sourceID = some src)
    (hstat : lookupF fs src.path = some (.dir md))
    (hchain : ∀ q, q ≠ [] → q <+: (["deployments", newID] : FPath) →
      lookupF fs q = none ∨ ∃ m', lookupF fs q = some (.dir m'))
    (hfresh : db.all (fun x => x.id != newID) = true)
    (hdisj1 : ¬ src.path <+: (["deployments", newID] : FPath))
    (hdisj2 : ¬ (["deployments", newID] : FPath) <+: src.path) :
    (rollbackModel db fs sourceID newID true t).1 =
        RbResult.ok src ⟨newID, "[ROLLBACK] " ++ src.filename, t, ["deployments", newID]⟩ ∧
    newID ≠ sourceID ∧
    (rollbackModel db fs sourceID newID true t).2.1 =
      ⟨newID, "[ROLLBACK] " ++ src.filename, t, ["deployments", newID]⟩ :: db ∧
    dbGet (rollbackModel db fs sourceID newID true t).2.1 sourceID = some src ∧
    (∀ rel c m mt, lookupF fs (src.path ++ rel) = some (.file c m mt) →
      lookupF (rollbackModel db fs sourceID newID true t).2.2
        (["deployments", newID] ++ rel) = some (.file c m 0)) ∧
    (∀ p, src.path <+: p →
      lookupF (rollbackModel db fs sourceID newID true t).2.2 p = lookupF fs p) := by
  have hmk : ∃ fs1, mkdirAllF fs (["deployments", newID] : FPath) 0o755 = some fs1 := by
    cases hm : mkdirAllF fs (["deployments", newID] : FPath) 0o755 with
    | none =>
      obtain ⟨t0, ht0, ht0p, c, mm, mt, hf⟩ :=
        mkdirAllAux_none_file 0o755 (["deployments", newID] : FPath) fs [] hm
      rw [List.nil_append] at hf
      rcases hchain t0 ht0 ht0p with h | ⟨m', h⟩
      · rw [hf] at h; exact Option.noConfusion h
      · rw [hf] at h; exact FKind.noConfusion (Option.some.inj h)
    | some fs1 => exact ⟨fs1, rfl⟩
  obtain ⟨fs1, hmk⟩ := hmk
  have hstat1 : lookupF fs1 src.path = some (.dir md) := mkdirAllAux_preserve hmk hstat
  have hnodup1 : (fs1.map (·.1)).Nodup :=
    mkdirAllAux_nodup 0o755 (["deployments", newID] : FPath) fs [] fs1 hmk hnodup
  have hcp : copyDirF fs src.path (["deployments", newID] : FPath) =
      (applyCopies (copyEntries fs1 src.path (["deployments", newID] : FPath)) fs1,
        true) := by
    simp only [copyDirF, hmk, hstat1]
  have hid_src : src.id = sourceID := by
    simpa using List.find?_some hget
  have hmem_src : src ∈ db := List.mem_of_find?_eq_some hget
  have hne : newID ≠ sourceID := by
    have h := (List.all_eq_true.1 hfresh) src hmem_src
    rw [bne_iff_ne] at h
    intro hc
    exact h (by rw [hid_src, hc])
  have hmod : rollbackModel db fs sourceID newID true t =
      (RbResult.ok src ⟨newID, "[ROLLBACK] " ++ src.filename, t, ["deployments", newID]⟩,
        (⟨newID, "[ROLLBACK] " ++ src.filename, t, ["deployments", newID]⟩ : DRec) :: db,
        applyCopies (copyEntries fs1 src.path (["deployments", newID] : FPath)) fs1) := by
    simp only [rollbackModel]
    rw [if_neg hsid]
    simp only [hget, hstat, hcp, dbInsert]
    rw [if_pos (by rw [Bool.true_and]; exact hfresh)]
  refine ⟨by rw [hmod], hne, by rw [hmod], ?_, ?_, ?_⟩
  · rw [hmod]
    simp only [dbGet]
    rw [List.find?_cons_of_neg _ (by simpa using fun hc => hne hc)]
    exact hget
  · intro rel c m mt hrel
    rw [hmod]
    have hrel1 : lookupF fs1 (src.path ++ rel) = some (.file c m mt) :=
      mkdirAllAux_preserve hmk hrel
    have hmem : ((src.path ++ rel, FKind.file c m mt) : FPath × FKind) ∈ fs1 := by
      simp only [lookupF] at hrel1
      cases hfind : fs1.find? fun e => e.1 = src.path ++ rel with
      | none => rw [hfind] at hrel1; exact Option.noConfusion hrel1
      | some e =>
        rw [hfind] at hrel1
        have he1 : e.1 = src.path ++ rel := by simpa using List.find?_some hfind
        have he2 : e.2 = FKind.file c m mt := Option.some.inj hrel1
        have : e = (src.path ++ rel, FKind.file c m mt) := Prod.ext he1 he2
        exact this ▸ List.mem_of_find?_eq_some hfind
    have hcopied : ((["deployments", newID] ++ rel, FKind.file c m 0) : FPath × FKind) ∈
        copyEntries fs1 src.path (["deployments", newID] : FPath) := by
      refine mem_copyEntries.2 ⟨(src.path ++ rel, FKind.file c m mt), hmem,
        List.prefix_append _ _, ?_⟩
      rw [List.drop_left]
      rfl
    exact applyCopies_lookup_mem _ fs1 _ _
      (copyEntries_key_nodup src.path _ hnodup1) hcopied
  · intro p hp
    rw [hmod]
    have hnotmem : p ∉ (copyEntries fs1 src.path (["deployments", newID] : FPath)).map
        (·.1) := by
      intro hmem
      obtain ⟨kv, hkv, hkeq⟩ := List.mem_map.1 hmem
      obtain ⟨e, he, hpe, rfl⟩ := mem_copyEntries.1 hkv
      have hnp : (["deployments", newID] : FPath) <+: p := by
        rw [← hkeq]
        exact List.prefix_append _ _
      rcases List.prefix_or_prefix_of_prefix hp hnp with hc | hc
      · exact hdisj1 hc
      · exact hdisj2 hc
    rw [applyCopies_lookup_not_mem _ fs1 p hnotmem]
    by_cases heq : lookupF fs1 p = lookupF fs p
    · exact heq
    · exfalso
      obtain ⟨⟨pre, hpre_ne, hpre_pre, hpeq⟩, _, _⟩ :=
        mkdirAllAux_sound 0o755 (["deployments", newID] : FPath) fs [] fs1 hmk p heq
      rw [List.nil_append] at hpeq
      subst hpeq
      exact hdisj1 (hp.trans hpre_pre)

/-- A nonempty prefix of a two-segment path is the first segment or the
whole path. -/
theorem prefix_two {a b : String} {q : List String} (hq : q ≠ [])
    (h : q <+: [a, b]) : q = [a] ∨ q = [a, b] := by
  cases q with
  | nil => exact absurd rfl hq
  | cons x q2 =>
    obtain ⟨hx, h2⟩ := List.cons_prefix_cons.1 h
    subst hx
    cases q2 with
    | nil => exact Or.inl rfl
    | cons y q3 =>
      obtain ⟨hy, h3⟩ := List.cons_prefix_cons.1 h2
      subst hy
      have h4 : q3 = [] := List.prefix_nil.1 h3
      subst h4
      exact Or.inr rfl

/-- Witness for C7 at a concrete source deployment with one file. -/
theorem c7_witness :
    ((dbGet [⟨"a", "site.zip", 0, ["deployments", "a"]⟩] "a" =
        some ⟨"a", "site.zip", 0, ["deployments", "a"]⟩ ∧
      lookupF [(["deployments"], FKind.dir 493), (["deployments", "a"], FKind.dir 493),
          (["deployments", "a", "f"], FKind.file "X" 420 5)]
        ["deployments", "a"] = some (FKind.dir 493)) ∧
      ("b" : String) ≠ "a" ∧
      (rollbackModel [⟨"a", "site.zip", 0, ["deployments", "a"]⟩]
          [(["deployments"], FKind.dir 493), (["deployments", "a"], FKind.dir 493),
            (["deployments", "a", "f"], FKind.file "X" 420 5)]
          "a" "b" true 9).1 =
        RbResult.ok ⟨"a", "site.zip", 0, ["deployments", "a"]⟩
          ⟨"b", "[ROLLBACK] site.zip", 9, ["deployments", "b"]⟩) ∧
    lookupF (rollbackModel [⟨"a", "site.zip", 0, ["deployments", "a"]⟩]
        [(["deployments"], FKind.dir 493), (["deployments", "a"], FKind.dir 493),
          (["deployments", "a", "f"], FKind.file "X" 420 5)]
        "a" "b" true 9).2.2 (["deployments", "b"] ++ ["f"]) =
      some (FKind.file "X" 420 0) ∧
    lookupF (rollbackModel [⟨"a", "site.zip", 0, ["deployments", "a"]⟩]
        [(["deployments"], FKind.dir 493), (["deployments", "a"], FKind.dir 493),
          (["deployments", "a", "f"], FKind.file "X" 420 5)]
        "a" "b" true 9).2.2 ["deployments", "a", "f"] =
      some (FKind.file "X" 420 5) := by
  have hchain : ∀ q, q ≠ [] → q <+: (["deployments", "b"] : FPath) →
      lookupF [(["deployments"], FKind.dir 493), (["deployments", "a"], FKind.dir 493),
          (["deployments", "a", "f"], FKind.file "X" 420 5)] q = none ∨
        ∃ m', lookupF [(["deployments"], FKind.dir 493),
            (["deployments", "a"], FKind.dir 493),
            (["deployments", "a", "f"], FKind.file "X" 420 5)] q =
          some (FKind.dir m') := by
    intro q hq hqpre
    rcases prefix_two hq hqpre with rfl | rfl
    · exact Or.inr ⟨493, by decide⟩
    · exact Or.inl (by decide)
  have h := c7_rollback [⟨"a", "site.zip", 0, ["deployments", "a"]⟩]
    [(["deployments"], FKind.dir 493), (["deployments", "a"], FKind.dir 493),
      (["deployments", "a", "f"], FKind.file "X" 420 5)]
    "a" "b" 9 ⟨"a", "site.zip", 0, ["deployments", "a"]⟩ 493
    (by decide) (by decide) (by decide) (by decide) hchain (by decide)
    (by decide) (by decide)
  exact ⟨⟨⟨by decide, by decide⟩, h.2.1, h.1⟩,
    h.2.2.2.2.1 ["f"] "X" 420 5 (by decide),
    (h.2.2.2.2.2 ["deployments", "a", "f"] (by decide)).trans (by decide)⟩

section RoundTripLemmas

theorem cleanSegs_eq_filter (abs : Bool) (l : List String)
    (h : ∀ s ∈ l, s ≠ "..") : cleanSegs abs l = filterSegs l := by
  have h2 := cleanSegs_append_no_dd abs [] l h
  rw [List.nil_append] at h2
  rw [h2]
  rfl

theorem mem_filterSegs_ok {l : List String} {s : String}
    (h : s ∈ filterSegs l) : ¬ (s = "" ∨ s = ".") := by
  have h2 := List.of_mem_filter h
  simpa using h2

theorem joinSegs_ne_empty_of_filter {l : List String}
    (h : filterSegs l ≠ []) : joinSegs l ≠ "" := by
  intro hc
  apply h
  cases l with
  | nil => rfl
  | cons s rest =>
    cases rest with
    | nil =>
      simp only [joinSegs] at hc
      simp [filterSegs, List.filter_cons, hc]
    | cons s2 rest2 =>
      exfalso
      simp only [joinSegs] at hc
      have hdata := congrArg String.data hc
      rw [String.data_append, String.data_append] at hdata
      have hslash : ("/" : String).data = ['/'] := rfl
      rw [hslash] at hdata
      simp at hdata

theorem strStartsWith_append (s t : String) :
    strStartsWith (s ++ t) s = true := by
  simp only [strStartsWith]
  rw [List.isPrefixOf_iff_prefix, String.data_append]
  exact List.prefix_append _ _

theorem not_entrySkipped_elim {dest : FPath} {e : ZEntry}
    (h : ¬ entrySkipped dest e) :
    hasDotDot e.name = false ∧
      strStartsWith (pathToStr (cleanSegs false (dest ++ e.name)))
        (pathToStr (cleanSegs false dest) ++ "/") = true := by
  constructor
  · cases hv : hasDotDot e.name
    · rfl
    · exact absurd (Or.inl hv) h
  · cases hv : strStartsWith (pathToStr (cleanSegs false (dest ++ e.name)))
        (pathToStr (cleanSegs false dest) ++ "/")
    · exact absurd (Or.inr hv) h
    · rfl

/-- Nothing the extraction loop does after some point removes or
rewrites a path that no remaining unskipped file entry extracts to. -/
theorem unzip_preserve (dest : FPath) :
    ∀ (post : List ZEntry) (fs : Fs) (q : FPath) (v : FKind),
      lookupF fs q = some v →
      (∀ e2 ∈ post, e2.isDir = false →
        entrySkipped dest e2 ∨ cleanSegs false (dest ++ e2.name) ≠ q) →
      lookupF (unzipEntries fs dest post).1 q = some v := by
  intro post
  induction post with
  | nil => intro fs q v hv _; exact hv
  | cons e rest ih =>
    intro fs q v hv hpost
    have hrest : ∀ e2 ∈ rest, e2.isDir = false →
        entrySkipped dest e2 ∨ cleanSegs false (dest ++ e2.name) ≠ q :=
      fun e2 h2 => hpost e2 (List.mem_cons_of_mem _ h2)
    by_cases hsk : entrySkipped dest e
    · rw [unzipEntries_skip hsk]
      exact ih fs q v hv hrest
    · obtain ⟨hdd, hpre⟩ := not_entrySkipped_elim hsk
      by_cases hd : e.isDir = true
      · rw [unzipEntries_cons_dir hdd hpre hd]
        cases hmk : mkdirAllF fs (cleanSegs false (dest ++ e.name)) e.mode with
        | none =>
          simp only [hmk, Option.getD_none]
          exact ih fs q v hv hrest
        | some fs2 =>
          simp only [hmk, Option.getD_some]
          exact ih fs2 q v (mkdirAllAux_preserve hmk hv) hrest
      · have hd' : e.isDir = false := by
          cases hv2 : e.isDir
          · rfl
          · exact absurd hv2 hd
        have hq' : cleanSegs false (dest ++ e.name) ≠ q := by
          rcases hpost e (List.mem_cons_self _ _) hd' with h | h
          · exact absurd h hsk
          · exact h
        rw [unzipEntries_cons_file hdd hpre hd']
        cases hmk : mkdirAllF fs (cleanSegs false (dest ++ e.name)).dropLast 0o755 with
        | none => simp only [hmk]; exact hv
        | some fs1 =>
          simp only [hmk]
          have hv1 : lookupF fs1 q = some v := mkdirAllAux_preserve hmk hv
          cases hw : writeFileF fs1 (cleanSegs false (dest ++ e.name))
              (if e.readOk then e.content else "") e.mode with
          | none => simp only [hw]; exact hv1
          | some fs2 =>
            simp only [hw]
            have hv2 : lookupF fs2 q = some v := by
              rw [(writeFileF_some_lookup hw).1 q (fun hc => hq' hc.symm)]
              exact hv1
            cases hro : e.readOk with
            | true =>
              rw [if_pos rfl]
              exact ih fs2 q v hv2 hrest
            | false =>
              rw [if_neg Bool.false_ne_true]
              exact hv2

/-- If the extraction loop finishes successfully, a file entry that
passes both guards and is not superseded by a later file entry with the
same extracted path ends up on disk with its own content. -/
theorem unzip_writes_file (dest : FPath) :
    ∀ (pre : List ZEntry) (fs : Fs) (e : ZEntry) (post : List ZEntry),
      e.isDir = false →
      ¬ entrySkipped dest e →
      (∀ e2 ∈ post, e2.isDir = false →
        cleanSegs false (dest ++ e2.name) ≠ cleanSegs false (dest ++ e.name)) →
      (unzipEntries fs dest (pre ++ e :: post)).2 = true →
      ∃ m, lookupF (unzipEntries fs dest (pre ++ e :: post)).1
        (cleanSegs false (dest ++ e.name)) = some (.file e.content m 0) := by
  intro pre
  induction pre with
  | nil =>
    intro fs e post he hns hlast hsucc
    obtain ⟨hdd, hpre⟩ := not_entrySkipped_elim hns
    rw [List.nil_append] at hsucc ⊢
    rw [unzipEntries_cons_file hdd hpre he] at hsucc ⊢
    cases hmk : mkdirAllF fs (cleanSegs false (dest ++ e.name)).dropLast 0o755 with
    | none => simp only [hmk] at hsucc; exact Bool.noConfusion hsucc
    | some fs1 =>
      simp only [hmk] at hsucc ⊢
      cases hw : writeFileF fs1 (cleanSegs false (dest ++ e.name))
          (if e.readOk then e.content else "") e.mode with
      | none => simp only [hw] at hsucc; exact Bool.noConfusion hsucc
      | some fs2 =>
        simp only [hw] at hsucc ⊢
        cases hro : e.readOk with
        | false =>
          rw [hro, if_neg Bool.false_ne_true] at hsucc
          exact Bool.noConfusion hsucc
        | true =>
          rw [hro, if_pos rfl] at hsucc
          rw [if_pos rfl]
          rw [hro, if_pos rfl] at hw
          obtain ⟨mm, hv⟩ := (writeFileF_some_lookup hw).2
          exact ⟨mm, unzip_preserve dest post fs2 _ _ hv
            (fun e2 h2 hd2 => Or.inr (hlast e2 h2 hd2))⟩
  | cons a rest ih =>
    intro fs e post he hns hlast hsucc
    rw [List.cons_append] at hsucc ⊢
    by_cases hsk : entrySkipped dest a
    · rw [unzipEntries_skip hsk] at hsucc ⊢
      exact ih fs e post he hns hlast hsucc
    · obtain ⟨hdd, hpre⟩ := not_entrySkipped_elim hsk
      by_cases hd : a.isDir = true
      · rw [unzipEntries_cons_dir hdd hpre hd] at hsucc ⊢
        exact ih _ e post he hns hlast hsucc
      · have hd' : a.isDir = false := by
          cases hv : a.isDir
          · rfl
          · exact absurd hv hd
        rw [unzipEntries_cons_file hdd hpre hd'] at hsucc ⊢
        cases hmk : mkdirAllF fs (cleanSegs false (dest ++ a.name)).dropLast 0o755 with
        | none => simp only [hmk] at hsucc; exact Bool.noConfusion hsucc
        | some fs1 =>
          simp only [hmk] at hsucc ⊢
          cases hw : writeFileF fs1 (cleanSegs false (dest ++ a.name))
              (if a.readOk then a.content else "") a.mode with
          | none => simp only [hw] at hsucc; exact Bool.noConfusion hsucc
          | some fs2 =>
            simp only [hw] at hsucc ⊢
            cases hro : a.readOk with
            | false =>
              rw [hro, if_neg Bool.false_ne_true] at hsucc
              exact Bool.noConfusion hsucc
            | true =>
              rw [hro, if_pos rfl] at hsucc
              rw [if_pos rfl]
              exact ih fs2 e post he hns hlast hsucc

/-- Reduction of a successful upload (used by the round-trip claim):
the handler answers with the response record, persists the row, and the
final filesystem is the one extraction produced. -/
theorem uploadModel_ok_state (db : List DRec) (fs : Fs) (declaredName : String)
    (archive : ZArchive) (siteID : String) (t1 t2 : Nat)
    (hname : declaredName ≠ "")
    (hunzip : (unzipF fs ["deployments", siteID] archive).2 = true)
    (hfresh : db.all (fun x => x.id != siteID) = true) :
    uploadModel db fs true declaredName archive siteID true t1 t2 =
      (.ok ⟨siteID, declaredName, t2, ["deployments", siteID]⟩,
        (⟨siteID, declaredName, t1, ["deployments", siteID]⟩ : DRec) :: db,
        (unzipF fs ["deployments", siteID] archive).1) := by
  have hcond : ¬ ((true : Bool) = false ∨ declaredName = "") := by
    rintro (h | h)
    · exact Bool.noConfusion h
    · exact hname h
  rcases hu : unzipF fs ["deployments", siteID] archive with ⟨fs1, okv⟩
  rw [hu] at hunzip
  have hok : okv = true := hunzip
  subst hok
  simp only [uploadModel]
  rw [if_neg hcond]
  simp only [hu, if_neg hname, dbInsert]
  rw [if_pos (by rw [Bool.true_and]; exact hfresh)]

end RoundTripLemmas

theorem pathToStr_append_ne (A B : List String) (hA : A ≠ []) (hB : B ≠ []) :
    pathToStr (A ++ B) = (pathToStr A ++ "/") ++ joinSegs B := by
  simp only [pathToStr]
  rw [if_neg (fun hc => hA (List.append_eq_nil.1 hc).1), if_neg hA,
    joinSegs_append A B hA hB]

theorem strStartsWith_absPathStr_append (A B : FPath) (hA : A ≠ []) (hB : B ≠ []) :
    strStartsWith (absPathStr (A ++ B)) (absPathStr A) = true := by
  simp only [strStartsWith, absPathStr]
  rw [List.isPrefixOf_iff_prefix, joinSegs_append A B hA hB]
  refine ⟨("/" ++ joinSegs B).data, ?_⟩
  simp [String.data_append, List.append_assoc]

/-- Claim C6 (counterexample): two failures of the literal round-trip
claim on successfully uploaded archives.  (1) An archive with two safe
entries of the same name `f`: resolving `f` returns the second entry's
bytes `BBB`, not the first safe entry's bytes `AAA`.  (2) An archive
with the single entry `a..b.html` — which has no parent-directory
traversal *segment* and stays inside the destination, hence is safe in
the claim's sense — uploads successfully but the entry is skipped by
the extractor's substring guard `strings.Contains(name, "..")`, so its
public path resolves to `NotFound` instead of its content. -/
theorem c6_counterexample :
    ((uploadModel [] [] true "site.zip"
        ⟨true, [⟨["f"], false, "AAA", 420, true⟩, ⟨["f"], false, "BBB", 420, true⟩]⟩
        "s1" true 0 1).1 =
      UpResult.ok ⟨"s1", "site.zip", 1, ["deployments", "s1"]⟩ ∧
      resolveModel ["srv"]
        (uploadModel [] [] true "site.zip"
          ⟨true, [⟨["f"], false, "AAA", 420, true⟩, ⟨["f"], false, "BBB", 420, true⟩]⟩
          "s1" true 0 1).2.2 ["s1", "f"] = SResult.ok "BBB" 0 ∧
      ¬ resolveModel ["srv"]
        (uploadModel [] [] true "site.zip"
          ⟨true, [⟨["f"], false, "AAA", 420, true⟩, ⟨["f"], false, "BBB", 420, true⟩]⟩
          "s1" true 0 1).2.2 ["s1", "f"] = SResult.ok "AAA" 0) ∧
    ((∀ s ∈ ([ "a..b.html" ] : List String), s ≠ "..") ∧
      strictlyInside ["deployments", "s2"]
        (cleanSegs false (["deployments", "s2"] ++ ["a..b.html"])) ∧
      (uploadModel [] [] true "site.zip"
        ⟨true, [⟨["a..b.html"], false, "hi", 420, true⟩]⟩ "s2" true 0 1).1 =
        UpResult.ok ⟨"s2", "site.zip", 1, ["deployments", "s2"]⟩ ∧
      resolveModel ["srv"]
        (uploadModel [] [] true "site.zip"
          ⟨true, [⟨["a..b.html"], false, "hi", 420, true⟩]⟩ "s2" true 0 1).2.2
        ["s2", "a..b.html"] = SResult.notFound) := by
  constructor
  · exact ⟨by decide, by decide, by decide⟩
  · refine ⟨by decide, ?_, by decide, by decide⟩
    constructor
    · decide
    · decide

/-- Claim C6 (amended): the round-trip property restricted to entries
the extractor actually writes last.  For a successfully uploaded
archive `pre ++ e :: post`, if the file entry `e` carries no `..`
substring in any name segment (the extractor's guard, slightly stronger
than having no traversal segment), its cleaned path strictly extends
the destination, and no later file entry extracts to the same cleaned
path, then resolving `e`'s public path `/{siteID}/{name}` returns
content byte-identical to `e`'s content.  Well-formedness side
conditions: the site id and the working-directory segments are ordinary
names (non-empty, not `.` or `..`). -/
theorem c6_roundtrip (db : List DRec) (fs : Fs) (declaredName siteID : String)
    (cwd : FPath) (pre post : List ZEntry) (e : ZEntry) (t1 t2 : Nat)
    (hname : declaredName ≠ "")
    (hsid1 : siteID ≠ "") (hsid2 : siteID ≠ ".") (hsid3 : siteID ≠ "..")
    (hcwd : ∀ s ∈ cwd, s ≠ "" ∧ s ≠ "." ∧ s ≠ "..")
    (he_file : e.isDir = false)
    (hsafe : ∀ s ∈ e.name, containsDD s = false)
    (hstays : filterSegs e.name ≠ [])
    (hlast : ∀ e2 ∈ post, e2.isDir = false →
      cleanSegs false (["deployments", siteID] ++ e2.name) ≠
        cleanSegs false (["deployments", siteID] ++ e.name))
    (hunzip : (unzipF fs ["deployments", siteID] ⟨true, pre ++ e :: post⟩).2 = true)
    (hfresh : db.all (fun x => x.id != siteID) = true) :
    resolveModel cwd
      (uploadModel db fs true declaredName ⟨true, pre ++ e :: post⟩ siteID true t1 t2).2.2
      (siteID :: e.name) = SResult.ok e.content 0 := by
  have hAsegs : ∀ s ∈ (["deployments", siteID] : List String), s ≠ ".." := by
    intro s hs
    rcases List.mem_cons.1 hs with rfl | hs2
    · decide
    · rcases List.mem_cons.1 hs2 with rfl | hs3
      · exact hsid3
      · exact absurd hs3 (List.not_mem_nil s)
  have hname_dd : ∀ s ∈ e.name, s ≠ ".." := by
    intro s hs hc
    have h2 := hsafe s hs
    rw [hc, containsDD_dd] at h2
    exact Bool.noConfusion h2
  have hdd : hasDotDot e.name = false :=
    List.any_eq_false.2 (fun s hs h => by rw [hsafe s hs] at h; exact Bool.noConfusion h)
  have hAclean : ∀ s ∈ (["deployments", siteID] : List String), ¬ (s = "" ∨ s = ".") := by
    intro s hs
    rcases List.mem_cons.1 hs with rfl | hs2
    · decide
    · rcases List.mem_cons.1 hs2 with rfl | hs3
      · rintro (h | h)
        · exact hsid1 h
        · exact hsid2 h
      · exact absurd hs3 (List.not_mem_nil s)
  have hdest_clean : cleanSegs false (["deployments", siteID] : List String) =
      ["deployments", siteID] := by
    rw [cleanSegs_eq_filter false _ hAsegs, filterSegs_eq_of_clean _ hAclean]
  have hF : cleanSegs false (["deployments", siteID] ++ e.name) =
      ["deployments", siteID] ++ filterSegs e.name := by
    rw [cleanSegs_append_no_dd false _ _ hname_dd, hdest_clean]
  have hns : ¬ entrySkipped ["deployments", siteID] e := by
    rintro (h | h)
    · rw [hdd] at h; exact Bool.noConfusion h
    · have htrue : strStartsWith
          (pathToStr (cleanSegs false (["deployments", siteID] ++ e.name)))
          (pathToStr (cleanSegs false ["deployments", siteID]) ++ "/") = true := by
        rw [hF, hdest_clean,
          pathToStr_append_ne _ _ (by simp) hstays]
        exact strStartsWith_append _ _
      rw [h] at htrue
      exact Bool.noConfusion htrue
  have hup := uploadModel_ok_state db fs declaredName ⟨true, pre ++ e :: post⟩
    siteID t1 t2 hname hunzip hfresh
  have hfs : (uploadModel db fs true declaredName ⟨true, pre ++ e :: post⟩
      siteID true t1 t2).2.2 =
      (unzipF fs ["deployments", siteID] ⟨true, pre ++ e :: post⟩).1 := by
    rw [hup]
  have hunf : unzipF fs ["deployments", siteID] ⟨true, pre ++ e :: post⟩ =
      unzipEntries ((mkdirAllF fs (cleanSegs false ["deployments", siteID]) 0o755).getD fs)
        ["deployments", siteID] (pre ++ e :: post) := by
    simp only [unzipF]
    rw [if_neg (not_not_intro trivial)]
  have hsucc : (unzipEntries
      ((mkdirAllF fs (cleanSegs false ["deployments", siteID]) 0o755).getD fs)
      ["deployments", siteID] (pre ++ e :: post)).2 = true := by
    rw [← hunf]
    exact hunzip
  obtain ⟨m, hlook⟩ := unzip_writes_file ["deployments", siteID] pre
    ((mkdirAllF fs (cleanSegs false ["deployments", siteID]) 0o755).getD fs)
    e post he_file hns hlast hsucc
  rw [← hunf, hF] at hlook
  obtain ⟨n1, ns, hn⟩ : ∃ a l, e.name = a :: l := by
    cases hne : e.name with
    | nil => rw [hne] at hstays; exact absurd rfl hstays
    | cons a l => exact ⟨a, l, rfl⟩
  have hstays2 : filterSegs (n1 :: ns) ≠ [] := hn ▸ hstays
  rw [hn] at hlook
  have hFmem : ∀ s ∈ (["deployments", siteID] ++ filterSegs (n1 :: ns) : List String),
      s ≠ ".." := by
    intro s hs
    rcases List.mem_append.1 hs with h | h
    · exact hAsegs s h
    · exact hname_dd s (hn.symm ▸ List.mem_of_mem_filter h)
  have hFclean : ∀ s ∈ (["deployments", siteID] ++ filterSegs (n1 :: ns) : List String),
      ¬ (s = "" ∨ s = ".") := by
    intro s hs
    rcases List.mem_append.1 hs with h | h
    · exact hAclean s h
    · exact mem_filterSegs_ok h
  have hcwd_dd : ∀ s ∈ cwd, s ≠ ".." := fun s hs => (hcwd s hs).2.2
  have hcwd_clean : ∀ s ∈ cwd, ¬ (s = "" ∨ s = ".") := by
    intro s hs
    rintro (h | h)
    · exact (hcwd s hs).1 h
    · exact (hcwd s hs).2.1 h
  have hcwd_eq : cleanSegs true cwd = cwd := by
    rw [cleanSegs_eq_filter true _ hcwd_dd, filterSegs_eq_of_clean _ hcwd_clean]
  have habs1 : cleanSegs true (cwd ++ (["deployments", siteID] ++ filterSegs (n1 :: ns))) =
      cwd ++ (["deployments", siteID] ++ filterSegs (n1 :: ns)) := by
    rw [cleanSegs_append_no_dd true _ _ hFmem, hcwd_eq,
      filterSegs_eq_of_clean _ hFclean]
  have habs2 : cleanSegs true (cwd ++ ["deployments"]) = cwd ++ ["deployments"] := by
    rw [cleanSegs_append_no_dd true _ _ (by intro s hs; simp at hs; subst hs; decide),
      hcwd_eq]
    rfl
  have hre : cwd ++ (["deployments", siteID] ++ filterSegs (n1 :: ns)) =
      (cwd ++ ["deployments"]) ++ ([siteID] ++ filterSegs (n1 :: ns)) := by
    simp [List.append_assoc]
  have hcheck : strStartsWith
      (absPathStr (cwd ++ (["deployments", siteID] ++ filterSegs (n1 :: ns))))
      (absPathStr (cwd ++ ["deployments"])) = true := by
    rw [hre]
    exact strStartsWith_absPathStr_append _ _ (by simp) (by simp)
  rw [hfs, hn]
  simp only [resolveModel]
  rw [if_neg (joinSegs_ne_empty_of_filter hstays2)]
  rw [show cleanSegs false (["deployments", siteID] ++ n1 :: ns) =
      ["deployments", siteID] ++ filterSegs (n1 :: ns) from hn ▸ hF]
  rw [habs1, habs2]
  rw [if_neg (not_not_intro hcheck)]
  simp only [hlook]

/-- Witness for the amended C6 at a concrete one-entry archive. -/
theorem c6_witness :
    ((unzipF [] ["deployments", "s1"]
        ⟨true, [] ++ (⟨["f"], false, "hello", 420, true⟩ : ZEntry) :: []⟩).2 = true ∧
      (∀ s ∈ (⟨["f"], false, "hello", 420, true⟩ : ZEntry).name, containsDD s = false) ∧
      filterSegs (⟨["f"], false, "hello", 420, true⟩ : ZEntry).name ≠ []) ∧
    resolveModel ["srv"]
      (uploadModel [] [] true "site.zip"
        ⟨true, [] ++ (⟨["f"], false, "hello", 420, true⟩ : ZEntry) :: []⟩
        "s1" true 0 1).2.2
      ("s1" :: (⟨["f"], false, "hello", 420, true⟩ : ZEntry).name) =
      SResult.ok "hello" 0 :=
  ⟨⟨by decide, by decide, by decide⟩,
   c6_roundtrip [] [] "site.zip" "s1" ["srv"] [] []
     ⟨["f"], false, "hello", 420, true⟩ 0 1
     (by decide) (by decide) (by decide) (by decide) (by decide) (by decide)
     (by decide) (by decide) (by decide) (by decide) (by decide)⟩
